import Mathlib

/-!
Verification of the ZigZag layered Proof-of-Replication core
(`storage-proofs/src/zigzag/proof.rs` and `storage-proofs/src/crypto/kdf.rs`).

The development shallowly embeds the Rust source.  Byte buffers are
`List Nat` (one entry per byte); fallible Rust code (functions returning
`Result`, plus panics from `assert!`, out-of-bounds indexing and
`unwrap`/`unimplemented!`) is embedded in an `Except RFail` monad where
`RFail.errored` stands for a returned `Err` and `RFail.panicked` for a panic.

External collaborators that the repository uses but whose sources are not
part of the verified tree (hash family, field arithmetic, Merkle container,
graph sampler, challenge derivation) are modelled from the specification as
explicit parameters (`HasherModel`, `GraphModel`, concrete Merkle functions),
faithful to the interface contracts of spec sections 3, 4.1, 4.2 and 6.
-/

namespace ZigZag

/-- Failure modes of embedded Rust code: `errored` models a returned
`Err(..)`, `panicked` models a Rust panic (failed `assert!`, slice index
out of bounds, `unwrap()` of an error, `unimplemented!()`). -/
inductive RFail where
  | errored : RFail
  | panicked : RFail
deriving DecidableEq, Repr

/-- Result monad for the embedded code. -/
abbrev RR (α : Type) := Except RFail α

/-- Byte strings are lists of naturals (each conceptually `< 256`). -/
abbrev Bytes := List Nat

end ZigZag

/-- Monadic map over the embedded result monad (structural formulation of
`Iterator::collect::<Result<_, _>>()`, failing on the first failure). -/
def List.rrMapM {α β : Type} (f : α → ZigZag.RR β) : List α → ZigZag.RR (List β)
  | [] => .ok []
  | a :: t => do
    let b ← f a
    let r ← rrMapM f t
    .ok (b :: r)

namespace ZigZag

/-- Size in bytes of one node / domain element (`util::NODE_SIZE`). -/
def NODE_SIZE : Nat := 32

/-- Byte slice of node `v` inside a flat buffer, total function variant
(used by the encoder model where bounds are established separately). -/
def nodeAt (data : Bytes) (v : Nat) : Bytes :=
  (data.drop (v * NODE_SIZE)).take NODE_SIZE

/-- Embedding of `util::data_at_node`: the 32-byte slice of node `v`,
or an error when the buffer is too short. -/
def data_at_node (data : Bytes) (v : Nat) : RR Bytes :=
  if (v + 1) * NODE_SIZE ≤ data.length then .ok (nodeAt data v) else .error .errored

/-- Replace the 32-byte slice of node `v` inside a flat buffer. -/
def updateNode (data : Bytes) (v : Nat) (val : Bytes) : Bytes :=
  data.take (v * NODE_SIZE) ++ val ++ data.drop (v * NODE_SIZE + NODE_SIZE)

/-- Modelled from the spec (section 6, "Consumed interfaces"): the hash
family `{H, H2, kdf}`, the field-embedding `Encode`/`Decode` pair of the
encoder, and domain-element validation (`H::Domain::try_from_bytes`).
The concrete Pedersen / SHA-256 / BLAKE2s instantiations are outside the
verified sources, so the family is kept as an explicit parameter. -/
structure HasherModel where
  validDomain : Bytes → Bool
  hashF : Bytes → Bytes
  hash2F : Bytes → Bytes → Bytes
  kdfF : Bytes → Bytes
  encodeF : Bytes → Bytes → Bytes
  decodeF : Bytes → Bytes → Bytes
  deriveF : Nat → Nat → Bytes → Bytes → Nat → List Nat

/-- Embedding of `H::Domain::try_from_bytes` over the abstract family:
fails (`DomainDecodeFailure`) exactly on invalid byte strings. -/
def tryFromBytes (M : HasherModel) (b : Bytes) : RR Bytes :=
  if M.validDomain b then .ok b else .error .errored

/-- Modelled from the spec (sections 3 and 4.1): the layered graph.
`baseF ℓ x` are the base-DRG parents of `x` regenerated for layer `ℓ`
from the fixed seed, `expF x` the current expansion parents, `invIndex`
the fixed involution.  `zigzag` below transforms it between layers. -/
structure GraphModel where
  size : Nat
  layer : Nat
  baseF : Nat → Nat → List Nat
  expF : Nat → List Nat
  invIndex : Nat → Nat

/-- Base parents of the current layer (`base_parents`). -/
def GraphModel.baseParents (g : GraphModel) (x : Nat) : List Nat :=
  g.baseF g.layer x

/-- Full parent list, base followed by expansion (`parents`). -/
def GraphModel.parents (g : GraphModel) (x : Nat) : List Nat :=
  g.baseParents x ++ g.expF x

/-- Modelled from the spec (section 4.1): `zigzag()` inverts the expansion
edges through `inv_index`, regenerates the base parents for the next layer
from the same seed, and increments the layer counter. -/
def GraphModel.zigzag (g : GraphModel) : GraphModel :=
  { g with
    layer := g.layer + 1
    expF := fun x => (g.expF (g.invIndex x)).map g.invIndex }

/-- Iterated zigzag transform: the graph used for encoding layer `ℓ`. -/
def graphAt (g : GraphModel) : Nat → GraphModel
  | 0 => g
  | n + 1 => (graphAt g n).zigzag

/-- Combine adjacent pairs of a level of Merkle nodes with the 2-to-1 hash. -/
def pairUp (h2 : Bytes → Bytes → Bytes) : List Bytes → List Bytes
  | a :: b :: rest => h2 a b :: pairUp h2 rest
  | l => l

/-- Modelled from the spec (section 6, Merkle tree collaborator): root of a
binary Merkle tree over a power-of-two list of leaves, computed by repeated
pairwise hashing.  The first argument is evaluation fuel (the leaf count is
always enough). -/
def merkleRootF (h2 : Bytes → Bytes → Bytes) : Nat → List Bytes → Bytes
  | 0, l => l.headD []
  | fuel + 1, l => if l.length ≤ 1 then l.headD [] else merkleRootF h2 fuel (pairUp h2 l)

/-- Root of the Merkle tree with the given leaves (`Tree::root()`). -/
def merkleRoot (h2 : Bytes → Bytes → Bytes) (l : List Bytes) : Bytes :=
  merkleRootF h2 l.length l

/-- Modelled from the spec (section 6): a Merkle inclusion proof carries the
opened leaf, the authentication path (for each level: whether the opened
node is the right child, and the sibling node), and the asserted root. -/
structure MerkleProofM where
  leaf : Bytes
  path : List (Bool × Bytes)
  root : Bytes
deriving DecidableEq, Repr

/-- Authentication path of leaf `idx`, with fuel like `merkleRootF`. -/
def genPathF (h2 : Bytes → Bytes → Bytes) : Nat → List Bytes → Nat → List (Bool × Bytes)
  | 0, _, _ => []
  | fuel + 1, l, idx =>
    if l.length ≤ 1 then []
    else
      let sibIdx := if idx % 2 == 0 then idx + 1 else idx - 1
      (decide (idx % 2 = 1), (l.get? sibIdx).getD []) :: genPathF h2 fuel (pairUp h2 l) (idx / 2)

/-- Embedding of `Tree::gen_proof(idx)` (spec-modelled collaborator): panics
when the index is outside the tree, as the reference container does. -/
def treeGenProof (M : HasherModel) (leaves : List Bytes) (idx : Nat) : RR MerkleProofM :=
  if idx < leaves.length then
    .ok { leaf := (leaves.get? idx).getD []
          path := genPathF M.hash2F leaves.length leaves idx
          root := merkleRoot M.hash2F leaves }
  else .error .panicked

/-- Recompute the root implied by a leaf and an authentication path. -/
def pathRoot (h2 : Bytes → Bytes → Bytes) (leaf : Bytes) (path : List (Bool × Bytes)) : Bytes :=
  path.foldl (fun acc p => if p.1 then h2 p.2 acc else h2 acc p.2) leaf

/-- Leaf index encoded by the direction bits of an authentication path
(least-significant bit first). -/
def pathIndex (path : List (Bool × Bytes)) : Nat :=
  path.foldr (fun p acc => acc * 2 + (if p.1 then 1 else 0)) 0

/-- Embedding of `MerkleProof::proves_challenge(c)`: the path's direction
bits decode to the challenged index. -/
def MerkleProofM.provesChallenge (p : MerkleProofM) (c : Nat) : Bool :=
  pathIndex p.path == c

/-- Embedding of `MerkleProof::validate`: the path recomputes the asserted
root from the leaf. -/
def MerkleProofM.validate (M : HasherModel) (p : MerkleProofM) : Bool :=
  pathRoot M.hash2F p.leaf p.path == p.root

/-- Kind of a column (`zigzag::column::Column`): odd-layer labels only,
even-layer labels only, or all layers. -/
inductive ColKind where
  | odd : ColKind
  | even : ColKind
  | all : ColKind
deriving DecidableEq, Repr

/-- Modelled from the spec (sections 3 and 4, `zigzag::column::Column`):
the labels of one node position across layers. -/
structure ColumnM where
  index : Nat
  rows : List Bytes
  kind : ColKind
deriving DecidableEq, Repr

mutual

/-- Elements at even positions 0, 2, 4, … of a list. -/
def altEven : List α → List α
  | [] => []
  | a :: rest => a :: altOdd rest

/-- Elements at odd positions 1, 3, 5, … of a list. -/
def altOdd : List α → List α
  | [] => []
  | _ :: rest => altEven rest

end

/-- Alternate the elements of two lists, starting with the first
(`itertools::interleave`): once one list is exhausted the rest of the
other follows. -/
def interleave : List α → List α → List α
  | [], ys => ys
  | x :: xs, ys => x :: interleave ys xs
termination_by a b => a.length + b.length
decreasing_by simp; omega

/-- Modelled from the spec (section 3, column-commitment leaves): hash of a
column.  Odd and even columns hash their concatenated labels with `H`; a
full column hashes its odd-layer part and its even-layer part separately
and combines them with `H2`, so that `C_i = H2(O_i, E_i)`. -/
def columnHash (M : HasherModel) (c : ColumnM) : Bytes :=
  match c.kind with
  | .all => M.hash2F (M.hashF (altEven c.rows).flatten) (M.hashF (altOdd c.rows).flatten)
  | _ => M.hashF c.rows.flatten

/-- Label of a column at 1-indexed layer `ℓ` (`Column::get_node_at_layer`);
panics when the row is absent. -/
def columnNodeAtLayer (c : ColumnM) (layer : Nat) : RR Bytes :=
  match c.rows.get? (layer - 1) with
  | some r => .ok r
  | none => .error .panicked

/-- Modelled from the spec (section 4.5, `zigzag::column_proof::ColumnProof`):
a column together with its `tree_c` inclusion proof; odd (resp. even)
column proofs also carry the complementary precomputed even (resp. odd)
column hash needed to rebuild the committed leaf `C = H2(O, E)`. -/
structure ColumnProofM where
  column : ColumnM
  inclusionProof : MerkleProofM
  oBytes : Option Bytes
  eBytes : Option Bytes
deriving DecidableEq, Repr

/-- Embedding of `ColumnProof::all_from_column`. -/
def ColumnProofM.allFromColumn (column : ColumnM) (proof : MerkleProofM) : ColumnProofM :=
  { column := column, inclusionProof := proof, oBytes := none, eBytes := none }

/-- Embedding of `ColumnProof::odd_from_column`. -/
def ColumnProofM.oddFromColumn (column : ColumnM) (proof : MerkleProofM) (e : Bytes) :
    ColumnProofM :=
  { column := column, inclusionProof := proof, oBytes := none, eBytes := some e }

/-- Embedding of `ColumnProof::even_from_column`. -/
def ColumnProofM.evenFromColumn (column : ColumnM) (proof : MerkleProofM) (o : Bytes) :
    ColumnProofM :=
  { column := column, inclusionProof := proof, oBytes := some o, eBytes := none }

/-- Modelled from the spec (section 4.5, step 3): a column proof verifies
when the inclusion proof validates and its leaf equals the reconstructed
commitment `C = H2(O, E)` built from the column and the accompanying
complementary hash. -/
def ColumnProofM.verify (M : HasherModel) (cp : ColumnProofM) : Bool :=
  cp.inclusionProof.validate M &&
    match cp.column.kind, cp.oBytes, cp.eBytes with
    | .all, _, _ => cp.inclusionProof.leaf == columnHash M cp.column
    | .odd, _, some e => cp.inclusionProof.leaf == M.hash2F (columnHash M cp.column) e
    | .even, some o, _ => cp.inclusionProof.leaf == M.hash2F o (columnHash M cp.column)
    | _, _, _ => false

/-- Label of a verified column proof at 1-indexed layer `ℓ`
(`ColumnProof::get_verified_node_at_layer` / `get_node_at_layer`). -/
def ColumnProofM.nodeAtLayer (cp : ColumnProofM) (layer : Nat) : RR Bytes :=
  columnNodeAtLayer cp.column layer

/-- Embedding of `zigzag::encoding_proof::EncodingProof`: the opened encoded
and decoded labels and the parent labels feeding the key derivation. -/
structure EncodingProofM where
  encodedNode : Bytes
  decodedNode : Bytes
  parentsData : List Bytes
deriving DecidableEq, Repr

/-- Modelled from the spec (section 4.5): an encoding proof verifies by
reapplying the encoder step, `Encode(KDF(replica_id || parents), decoded)`,
and comparing with the expected encoded label.  The key derivation input
mirrors the encoder's (replica id followed by the concatenated parent
labels) so that prover and verifier agree, as completeness (P6) requires. -/
def EncodingProofM.verify (M : HasherModel) (ep : EncodingProofM) (replicaId : Bytes)
    (encoded decoded : Bytes) : Bool :=
  M.encodeF (M.kdfF (replicaId ++ ep.parentsData.flatten)) decoded == encoded

/-- Key of the encoder step at node `x` against buffer `buf`: the KDF of
the replica id followed by the concatenated parent labels. -/
def encKey (M : HasherModel) (g : GraphModel) (replicaId : Bytes) (buf : Bytes) (x : Nat) :
    Bytes :=
  M.kdfF (replicaId ++ ((g.parents x).map (nodeAt buf)).flatten)

/-- Modelled from the spec (section 4.2): one step of the verifiable delay
encoding at node `x` — derive the key from the replica id and the parent
labels in the current buffer, then combine it with the node's label. -/
def vdeStep (M : HasherModel) (g : GraphModel) (replicaId : Bytes) (buf : Bytes) (x : Nat) :
    Bytes :=
  updateNode buf x (M.encodeF (encKey M g replicaId buf x) (nodeAt buf x))

/-- Modelled from the spec (section 4.2, `vde::encode`): relabel every node
in place, in index (topological) order. -/
def vdeEncode (M : HasherModel) (g : GraphModel) (replicaId : Bytes) (data : Bytes) : Bytes :=
  (List.range g.size).foldl (vdeStep M g replicaId) data

/-- Modelled from the spec (section 4.2, `Decode` path used by
`DrgPoRep::extract_all`): recompute every node's key from the parent labels
of the encoded buffer and subtract it from the node's label. -/
def vdeDecode (M : HasherModel) (g : GraphModel) (replicaId : Bytes) (data : Bytes) : Bytes :=
  ((List.range g.size).map fun x =>
    M.decodeF (encKey M g replicaId data x) (nodeAt data x)).flatten

/-- Buffer after the first `j` encoding passes: `E_j` of the data model
(`E_0` is the raw data, pass `j` uses the `j`-times-transformed graph). -/
def layerBuf (M : HasherModel) (replicaId : Bytes) (g : GraphModel) (data : Bytes) :
    Nat → Bytes
  | 0 => data
  | j + 1 => vdeEncode M (graphAt g j) replicaId (layerBuf M replicaId g data j)

/-- Invariants of the layered graph asserted by the specification
(sections 3 and 4.1): the involution is size-preserving and self-inverse,
base parents are regenerated by layer parity (`zigzag().zigzag()` is
behaviorally equivalent to the original), the layer counter starts at 0,
and parents precede their node in the encoding order of both graph
parities (topological order of section 4.2). -/
structure GraphWf (g : GraphModel) : Prop where
  inv_inv : ∀ x, g.invIndex (g.invIndex x) = x
  inv_lt : ∀ x, x < g.size → g.invIndex x < g.size
  base_mod : ∀ j x, g.baseF j x = g.baseF (j % 2) x
  layer0 : g.layer = 0
  dag0 : ∀ x, x < g.size → ∀ p ∈ g.parents x, p < x
  dag1 : ∀ x, x < g.size → ∀ p ∈ g.zigzag.parents x, p < x

/-- Interface contracts of the hash family (spec section 6): digests are
node-sized, `Encode` preserves node size and byte range, and `Decode` is
its inverse on node-sized byte strings. -/
structure HasherWf (M : HasherModel) : Prop where
  kdf_len : ∀ b, (M.kdfF b).length = NODE_SIZE
  hash2_len : ∀ a b, (M.hash2F a b).length = NODE_SIZE
  encode_len : ∀ k v, k.length = NODE_SIZE → v.length = NODE_SIZE →
    (M.encodeF k v).length = NODE_SIZE
  encode_lt : ∀ k v, v.all (· < 256) = true → (M.encodeF k v).all (· < 256) = true
  decode_encode : ∀ k v, k.length = NODE_SIZE → v.length = NODE_SIZE →
    v.all (· < 256) = true → M.decodeF k (M.encodeF k v) = v

/-- Indices `lo, lo+2, lo+4, …` strictly below `hi` (Rust
`(lo..hi).step_by(2)`). -/
def stepBy2 (lo hi : Nat) : List Nat :=
  (List.range ((hi - lo + 1) / 2)).map (fun i => lo + 2 * i)

/-- Embedding of `get_node_at_layer`: `data_at_node(&encodings[layer], node)`;
the vector indexing panics when the layer is absent. -/
def get_node_at_layer (encodings : List Bytes) (node layer : Nat) : RR Bytes :=
  match encodings.get? layer with
  | some buf => data_at_node buf node
  | none => .error .panicked

/-- Embedding of `get_even_column`: the labels of position `x` at 0-indexed
layers `1, 3, 5, … < layers - 1` (1-indexed even layers). -/
def get_even_column (M : HasherModel) (encodings : List Bytes) (layers x : Nat) :
    RR ColumnM := do
  let rows ← (stepBy2 1 (layers - 1)).rrMapM (fun layer => do
    tryFromBytes M (← get_node_at_layer encodings x layer))
  .ok { index := x, rows := rows, kind := .even }

/-- Embedding of `get_odd_column`: the labels of position `x` at 0-indexed
layers `0, 2, 4, … < layers` (1-indexed odd layers). -/
def get_odd_column (M : HasherModel) (encodings : List Bytes) (layers x : Nat) :
    RR ColumnM := do
  let rows ← (stepBy2 0 layers).rrMapM (fun layer => do
    tryFromBytes M (← get_node_at_layer encodings x layer))
  .ok { index := x, rows := rows, kind := .odd }

/-- Embedding of `get_full_column`: the labels of `x` across layers
`0 … layers - 2`, switching to `inv_index(x)` on 0-indexed odd layers. -/
def get_full_column (M : HasherModel) (encodings : List Bytes) (g : GraphModel)
    (layers x : Nat) : RR ColumnM := do
  let inv_index := g.invIndex x
  let rows ← (List.range (layers - 1)).rrMapM (fun i => do
    tryFromBytes M
      (← get_node_at_layer encodings (if (i + 1) % 2 == 0 then inv_index else x) i))
  .ok { index := x, rows := rows, kind := .all }

/-- Embedding of `LayerChallenges { layers, count }`. -/
structure LayerChallenges where
  layers : Nat
  challenges_count : Nat
deriving DecidableEq, Repr

/-- Embedding of `Tau { comm_d, comm_r }`. -/
structure Tau where
  comm_d : Bytes
  comm_r : Bytes
deriving DecidableEq, Repr

/-- Embedding of `PersistentAux { comm_c, comm_r_last }`. -/
structure PersistentAux where
  comm_c : Bytes
  comm_r_last : Bytes
deriving DecidableEq, Repr

/-- Embedding of `TemporaryAux`; the three Merkle trees are represented by
their leaf lists, from which roots and inclusion proofs are computed. -/
structure TemporaryAux where
  encodings : List Bytes
  tree_d : List Bytes
  tree_r_last : List Bytes
  tree_c : List Bytes
  es : List Bytes
  os : List Bytes
deriving DecidableEq, Repr

/-- Embedding of `PublicParams { graph, layer_challenges }`. -/
structure PublicParams where
  graph : GraphModel
  layer_challenges : LayerChallenges

/-- Embedding of `PublicInputs { replica_id, seed, tau, k }`. -/
structure PublicInputs where
  replica_id : Bytes
  seed : Option Bytes
  tau : Tau
  k : Option Nat

/-- Embedding of `PrivateInputs { p_aux, t_aux }`. -/
structure PrivateInputs where
  p_aux : PersistentAux
  t_aux : TemporaryAux

/-- Embedding of `ReplicaColumnProof`. -/
structure ReplicaColumnProof where
  c_x : ColumnProofM
  c_inv_x : ColumnProofM
  drg_parents : List ColumnProofM
  exp_parents_even : List ColumnProofM
  exp_parents_odd : List ColumnProofM
deriving DecidableEq, Repr

/-- Embedding of `Proof` (one partition proof). -/
structure ProofM where
  comm_d_proofs : List MerkleProofM
  comm_r_last_proofs : List (MerkleProofM × List MerkleProofM)
  replica_column_proofs : List ReplicaColumnProof
  encoding_proof_1 : List EncodingProofM
  encoding_proofs : List (List EncodingProofM)
deriving DecidableEq, Repr

/-- Embedding of `Proof::serialize`, which is `unimplemented!()` in the
source and therefore panics on every call. -/
def ProofM.serialize (_p : ProofM) : RR Bytes :=
  .error .panicked

/-- Embedding of `PublicInputs::challenges`: derive the partition's
challenge positions, preferring the explicit seed over `comm_r`. -/
def PublicInputs.challenges (M : HasherModel) (pi : PublicInputs) (lc : LayerChallenges)
    (leaves : Nat) (partition_k : Option Nat) : List Nat :=
  let k := partition_k.getD 0
  match pi.seed with
  | some s => M.deriveF lc.challenges_count leaves pi.replica_id s k
  | none => M.deriveF lc.challenges_count leaves pi.replica_id pi.tau.comm_r k

/-- Embedding of `get_node`: decode the domain element of node `index`;
an out-of-range index panics (`expect`), an undecodable slice errors. -/
def get_node (M : HasherModel) (data : Bytes) (index : Nat) : RR Bytes :=
  match data_at_node data index with
  | .ok b => tryFromBytes M b
  | .error _ => .error .panicked

/-- Power-of-two test used by the Merkle container model (fuel-driven so
that it evaluates by kernel reduction). -/
def isPow2Aux : Nat → Nat → Bool
  | _, 0 => false
  | _, 1 => true
  | 0, _ => false
  | fuel + 1, n => n % 2 == 0 && isPow2Aux fuel (n / 2)

/-- Power-of-two test. -/
def isPow2 (n : Nat) : Bool := isPow2Aux n n

/-- Embedding of the local `build_tree` closure of
`transform_and_replicate_layers`: check the buffer is node-aligned
(`assert_eq!`, panics otherwise), decode every leaf (the `unwrap` panics on
an undecodable leaf), and hand the leaves to the Merkle container, which
rejects a non-power-of-two count. -/
def buildTree (M : HasherModel) (tree_data : Bytes) : RR (List Bytes) := do
  if tree_data.length % NODE_SIZE == 0 then
    let leafs := tree_data.length / NODE_SIZE
    let leaves ← (List.range leafs).rrMapM (fun i =>
      match get_node M tree_data i with
      | .ok d => (.ok d : RR Bytes)
      | .error _ => .error .panicked)
    if isPow2 leafs then .ok leaves else .error .errored
  else .error .panicked

/-- Encoding loop of `transform_and_replicate_layers` (step 2): encode
`remaining` layers starting from graph `g`, transforming the graph after
each pass, collecting every intermediate buffer except the last, and
checking the buffer length after each pass (`assert_eq!`). -/
def encodeLoop (M : HasherModel) (replica_id : Bytes) (nodes_count : Nat) :
    Nat → GraphModel → Bytes → RR (List Bytes × Bytes)
  | 0, _, buf => .ok ([], buf)
  | remaining + 1, g, buf =>
    let buf' := vdeEncode M g replica_id buf
    if buf'.length == NODE_SIZE * nodes_count then
      if remaining == 0 then .ok ([], buf')
      else do
        let (rest, last) ← encodeLoop M replica_id nodes_count remaining g.zigzag buf'
        .ok (buf' :: rest, last)
    else .error .panicked

/-- Embedding of `ZigZagDrgPoRep::transform_and_replicate_layers`.  The
mutated caller buffer is returned as the fourth component. -/
def transform_and_replicate_layers (M : HasherModel) (graph : GraphModel)
    (lc : LayerChallenges) (replica_id : Bytes) (data : Bytes)
    (data_tree : Option (List Bytes)) : RR (Tau × PersistentAux × TemporaryAux × Bytes) := do
  let nodes_count := graph.size
  if data.length == nodes_count * NODE_SIZE then
    let layers := lc.layers
    if 0 < layers then
      let tree_d ← match data_tree with
        | some t => .ok t
        | none => buildTree M data
      let (encodings, r_last) ← encodeLoop M replica_id nodes_count layers graph data
      if encodings.length == layers - 1 then
        let os ← (List.range nodes_count).rrMapM (fun x =>
          (get_odd_column M encodings layers x).map (columnHash M))
        let es ← (List.range nodes_count).rrMapM (fun x =>
          (get_even_column M encodings layers (graph.invIndex x)).map (columnHash M))
        let cs := ((os.zip es).map (fun p => M.hash2F p.1 p.2)).flatten
        let tree_c ← buildTree M cs
        let tree_r_last ← buildTree M r_last
        let comm_r := M.hashF (merkleRoot M.hash2F tree_c ++ merkleRoot M.hash2F tree_r_last)
        .ok ({ comm_d := merkleRoot M.hash2F tree_d, comm_r := comm_r },
             { comm_c := merkleRoot M.hash2F tree_c
               comm_r_last := merkleRoot M.hash2F tree_r_last },
             { encodings := encodings, tree_d := tree_d, tree_r_last := tree_r_last,
               tree_c := tree_c, es := es, os := os },
             r_last)
      else .error .panicked
    else .error .panicked
  else .error .panicked

/-- Embedding of `PoRep::replicate` for `ZigZagDrgPoRep`. -/
def replicate (M : HasherModel) (pp : PublicParams) (replica_id : Bytes) (data : Bytes)
    (data_tree : Option (List Bytes)) : RR (Tau × PersistentAux × TemporaryAux × Bytes) :=
  transform_and_replicate_layers M pp.graph pp.layer_challenges replica_id data data_tree

/-- Write `res` over the prefix of `data` (the copy-back loop of
`extract_and_invert_transform_layers`). -/
def overwritePrefix (data res : Bytes) : Bytes :=
  res ++ data.drop res.length

/-- Layer loop of `extract_and_invert_transform_layers`: transform the
graph first, then decode with the transformed graph. -/
def extractLoop (M : HasherModel) (replica_id : Bytes) :
    Nat → GraphModel → Bytes → Bytes
  | 0, _, data => data
  | n + 1, g, data =>
    let inverted := g.zigzag
    extractLoop M replica_id n inverted
      (overwritePrefix data (vdeDecode M inverted replica_id data))

/-- Embedding of `ZigZagDrgPoRep::extract_and_invert_transform_layers`. -/
def extract_and_invert_transform_layers (M : HasherModel) (graph : GraphModel)
    (lc : LayerChallenges) (replica_id : Bytes) (data : Bytes) : RR Bytes :=
  let layers := lc.layers
  if 0 < layers then .ok (extractLoop M replica_id layers graph data)
  else .error .panicked

/-- Embedding of `PoRep::extract_all` for `ZigZagDrgPoRep`. -/
def extract_all (M : HasherModel) (pp : PublicParams) (replica_id : Bytes) (data : Bytes) :
    RR Bytes :=
  extract_and_invert_transform_layers M pp.graph pp.layer_challenges replica_id data

/-- Vector indexing that panics out of bounds, as Rust `v[i]` does. -/
def vecIndex (l : List α) (i : Nat) : RR α :=
  match l.get? i with
  | some a => .ok a
  | none => .error .panicked

/-- Embedding of the `get_drg_parents_columns` closure of `prove_layers`. -/
def get_drg_parents_columns (M : HasherModel) (encodings : List Bytes) (g0 : GraphModel)
    (layers x : Nat) : RR (List ColumnM) :=
  (g0.baseParents x).rrMapM (fun parent => get_full_column M encodings g0 layers parent)

/-- Embedding of the `get_exp_parents_even_columns` closure of
`prove_layers`. -/
def get_exp_parents_even_columns (M : HasherModel) (encodings : List Bytes)
    (g1 : GraphModel) (layers x : Nat) : RR (List ColumnM) :=
  (g1.expF x).rrMapM (fun parent => get_even_column M encodings layers parent)

/-- Embedding of the `get_exp_parents_odd_columns` closure of
`prove_layers`. -/
def get_exp_parents_odd_columns (M : HasherModel) (encodings : List Bytes)
    (g2 : GraphModel) (layers x : Nat) : RR (List ColumnM) :=
  (g2.expF x).rrMapM (fun parent => get_odd_column M encodings layers parent)

/-- Per-challenge output of the prover, before the five component vectors
of a `Proof` are assembled. -/
structure ChallengeProofParts where
  comm_d_proof : MerkleProofM
  comm_r_last_proof : MerkleProofM × List MerkleProofM
  rpc : ReplicaColumnProof
  encoding_proof_1 : EncodingProofM
  encoding_proofs : List EncodingProofM
deriving DecidableEq, Repr

/-- Body of the per-challenge loop of `ZigZagDrgPoRep::prove_layers`. -/
def proveChallenge (M : HasherModel) (g0 g1 g2 : GraphModel) (t_aux : TemporaryAux)
    (layers : Nat) (_replica_id : Bytes) (challenge : Nat) : RR ChallengeProofParts := do
  let inv_challenge := g0.invIndex challenge
  let comm_d_proof ← treeGenProof M t_aux.tree_d challenge
  let cx_col ← get_full_column M t_aux.encodings g0 layers challenge
  let cx_incl ← treeGenProof M t_aux.tree_c cx_col.index
  let c_x := ColumnProofM.allFromColumn cx_col cx_incl
  let cix_col ← get_full_column M t_aux.encodings g0 layers inv_challenge
  let cix_incl ← treeGenProof M t_aux.tree_c cix_col.index
  let c_inv_x := ColumnProofM.allFromColumn cix_col cix_incl
  let drg_cols ← get_drg_parents_columns M t_aux.encodings g0 layers challenge
  let drg_parents ← drg_cols.rrMapM (fun column => do
    let incl ← treeGenProof M t_aux.tree_c column.index
    .ok (ColumnProofM.allFromColumn column incl))
  let odd_cols ← get_exp_parents_odd_columns M t_aux.encodings g2 layers challenge
  let exp_parents_odd ← odd_cols.rrMapM (fun column => do
    let index := column.index
    let incl ← treeGenProof M t_aux.tree_c index
    let e ← vecIndex t_aux.es index
    .ok (ColumnProofM.oddFromColumn column incl e))
  let even_cols ← get_exp_parents_even_columns M t_aux.encodings g1 layers inv_challenge
  let exp_parents_even ← even_cols.rrMapM (fun column => do
    let index := g1.invIndex column.index
    let incl ← treeGenProof M t_aux.tree_c index
    let o ← vecIndex t_aux.os index
    .ok (ColumnProofM.evenFromColumn column incl o))
  let rpc : ReplicaColumnProof :=
    { c_x := c_x, c_inv_x := c_inv_x, drg_parents := drg_parents,
      exp_parents_even := exp_parents_even, exp_parents_odd := exp_parents_odd }
  let incl_r ← treeGenProof M t_aux.tree_r_last inv_challenge
  let even_parents_proof ← (g1.parents inv_challenge).rrMapM (fun parent =>
    treeGenProof M t_aux.tree_r_last parent)
  let encoded_node ← rpc.c_x.nodeAtLayer 1
  let decoded_node := comm_d_proof.leaf
  let enc0 ← vecIndex t_aux.encodings 0
  let parents_data_1 ← (g0.parents challenge).rrMapM (fun parent => data_at_node enc0 parent)
  let ep1 : EncodingProofM :=
    { encodedNode := encoded_node, decodedNode := decoded_node, parentsData := parents_data_1 }
  let eps ← (List.range' 2 (layers - 2)).rrMapM (fun layer => do
    let gc := if layer % 2 == 0 then (g1, inv_challenge) else (g2, challenge)
    let encoded ← rpc.c_x.nodeAtLayer layer
    let decoded ← rpc.c_inv_x.nodeAtLayer (layer - 1)
    let encoded_data ← vecIndex t_aux.encodings (layer - 1)
    let parents_data ← (gc.1.parents gc.2).rrMapM (fun parent => data_at_node encoded_data parent)
    (.ok { encodedNode := encoded, decodedNode := decoded, parentsData := parents_data }
      : RR EncodingProofM))
  .ok { comm_d_proof := comm_d_proof, comm_r_last_proof := (incl_r, even_parents_proof),
        rpc := rpc, encoding_proof_1 := ep1, encoding_proofs := eps }

/-- Embedding of `ZigZagDrgPoRep::prove_layers`: run the leading
assertions, then build one `Proof` per partition from the per-challenge
parts. -/
def prove_layers (M : HasherModel) (graph_0 : GraphModel) (pub_inputs : PublicInputs)
    (t_aux : TemporaryAux) (lc : LayerChallenges) (layers partition_count : Nat) :
    RR (List ProofM) :=
  if 0 < layers then
    if t_aux.encodings.length == layers - 1 then
      let graph_size := graph_0.size
      if t_aux.es.length == graph_size && t_aux.os.length == graph_size then
        let graph_1 := graph_0.zigzag
        let graph_2 := graph_1.zigzag
        if graph_0.layer == 0 then
          (List.range partition_count).rrMapM (fun k => do
            let challenges := pub_inputs.challenges M lc graph_size (some k)
            let parts ← challenges.rrMapM
              (proveChallenge M graph_0 graph_1 graph_2 t_aux layers pub_inputs.replica_id)
            (.ok { comm_d_proofs := parts.map (·.comm_d_proof)
                   comm_r_last_proofs := parts.map (·.comm_r_last_proof)
                   replica_column_proofs := parts.map (·.rpc)
                   encoding_proof_1 := parts.map (·.encoding_proof_1)
                   encoding_proofs := parts.map (·.encoding_proofs) } : RR ProofM))
        else .error .panicked
      else .error .panicked
    else .error .panicked
  else .error .panicked

/-- Embedding of `ZigZagDrgPoRep::prove_all_partitions`. -/
def prove_all_partitions (M : HasherModel) (pp : PublicParams) (pub_inputs : PublicInputs)
    (priv_inputs : PrivateInputs) (partition_count : Nat) : RR (List ProofM) :=
  if 0 < partition_count then
    prove_layers M pp.graph pub_inputs priv_inputs.t_aux pp.layer_challenges
      pp.layer_challenges.layers partition_count
  else .error .panicked

/-- Loop verifying the encoding proofs for layers `2 … layers - 1` of one
challenge (second half of step 6 of the verifier). -/
def verifyEncodingLoop (M : HasherModel) (replica_id : Bytes) (rpc : ReplicaColumnProof) :
    Nat → List EncodingProofM → RR Bool
  | _, [] => .ok true
  | j, ep :: rest => do
    let layer := j + 2
    let encoded ← rpc.c_x.nodeAtLayer layer
    let decoded ← rpc.c_inv_x.nodeAtLayer (layer - 1)
    if ep.verify M replica_id encoded decoded then
      verifyEncodingLoop M replica_id rpc (j + 1) rest
    else .ok false

/-- Body of the per-challenge loop of `verify_all_partitions`: every failed
check yields `false`; out-of-range indexing into the proof's vectors and
the `assert_eq!` on the encoding-proof count panic. -/
def verifyChallenge (M : HasherModel) (g0 g1 : GraphModel) (layers : Nat)
    (replica_id : Bytes) (tau : Tau) (proof : ProofM) (size i c : Nat) : RR Bool := do
  let challenge := c % size
  let cdp ← vecIndex proof.comm_d_proofs i
  if cdp.provesChallenge challenge then
    if cdp.root == tau.comm_d then
      let rco ← vecIndex proof.replica_column_proofs i
      if rco.c_x.verify M && rco.c_inv_x.verify M
          && rco.drg_parents.all (fun p => p.verify M)
          && rco.exp_parents_even.all (fun p => p.verify M)
          && rco.exp_parents_odd.all (fun p => p.verify M) then
        let inv_challenge := g0.invIndex challenge
        let crl ← vecIndex proof.comm_r_last_proofs i
        if crl.1.provesChallenge inv_challenge then
          let parents := g1.parents inv_challenge
          if parents.length == crl.2.length then
            if (crl.2.zip parents).all (fun pq => pq.1.provesChallenge pq.2) then
              let ep1 ← vecIndex proof.encoding_proof_1 i
              let n1 ← rco.c_x.nodeAtLayer 1
              if ep1.verify M replica_id n1 cdp.leaf then
                let eps ← vecIndex proof.encoding_proofs i
                if eps.length == layers - 2 then
                  verifyEncodingLoop M replica_id rco 0 eps
                else .error .panicked
              else .ok false
            else .ok false
          else .ok false
        else .ok false
      else .ok false
    else .ok false
  else .ok false

/-- Sequential challenge loop of one partition's verification. -/
def verifyChallengeLoop (M : HasherModel) (g0 g1 : GraphModel) (layers : Nat)
    (replica_id : Bytes) (tau : Tau) (proof : ProofM) (size : Nat) :
    Nat → List Nat → RR Bool
  | _, [] => .ok true
  | i, c :: rest => do
    let b ← verifyChallenge M g0 g1 layers replica_id tau proof size i c
    if b then verifyChallengeLoop M g0 g1 layers replica_id tau proof size (i + 1) rest
    else .ok false

/-- Verification of one partition proof (the closure of the `all`). -/
def verifyPartition (M : HasherModel) (lc : LayerChallenges) (pub_inputs : PublicInputs)
    (g0 g1 : GraphModel) (layers k : Nat) (proof : ProofM) : RR Bool :=
  let challenges := pub_inputs.challenges M lc g0.size (some k)
  verifyChallengeLoop M g0 g1 layers pub_inputs.replica_id pub_inputs.tau proof g0.size
    0 challenges

/-- Embedding of `ZigZagDrgPoRep::verify_all_partitions`: transform the
graphs, assert the layer numbering, then conjoin the partition results. -/
def verify_all_partitions (M : HasherModel) (pp : PublicParams)
    (pub_inputs : PublicInputs) (partition_proofs : List ProofM) : RR Bool := do
  let graph_0 := pp.graph
  let graph_1 := graph_0.zigzag
  if graph_0.layer == 0 then
    let layers := pp.layer_challenges.layers
    let results ← partition_proofs.enum.rrMapM (fun kp =>
      verifyPartition M pp.layer_challenges pub_inputs graph_0 graph_1 layers kp.1 kp.2)
    .ok (results.all id)
  else .error .panicked

/-! BLAKE2s-256 and the concrete key-derivation function of
`storage-proofs/src/crypto/kdf.rs`.  Machine words are naturals reduced
modulo `2^32` explicitly. -/

/-- Rotate a 32-bit word right by `n` bits (for `x < 2^32`, `n ≤ 32`). -/
def rotr32 (x n : Nat) : Nat :=
  x / 2 ^ n + x % 2 ^ n * 2 ^ (32 - n)

/-- Initialization vector of BLAKE2s. -/
def B2IV : List Nat :=
  [0x6A09E667, 0xBB67AE85, 0x3C6EF372, 0xA54FF53A,
   0x510E527F, 0x9B05688C, 0x1F83D9AB, 0x5BE0CD19]

/-- Message schedule of BLAKE2s (ten rounds). -/
def B2SIGMA : List (List Nat) :=
  [[0, 1, 2, 3, 4, 5, 6, 7, 8, 9, 10, 11, 12, 13, 14, 15],
   [14, 10, 4, 8, 9, 15, 13, 6, 1, 12, 0, 2, 11, 7, 5, 3],
   [11, 8, 12, 0, 5, 2, 15, 13, 10, 14, 3, 6, 7, 1, 9, 4],
   [7, 9, 3, 1, 13, 12, 11, 14, 2, 6, 5, 10, 4, 0, 15, 8],
   [9, 0, 5, 7, 2, 4, 10, 15, 14, 1, 11, 12, 6, 8, 3, 13],
   [2, 12, 6, 10, 0, 11, 8, 3, 4, 13, 7, 5, 15, 14, 1, 9],
   [12, 5, 1, 15, 14, 13, 4, 10, 0, 7, 6, 3, 9, 2, 8, 11],
   [13, 11, 7, 14, 12, 1, 3, 9, 5, 0, 15, 4, 8, 6, 2, 10],
   [6, 15, 14, 9, 11, 3, 0, 8, 12, 2, 13, 7, 1, 4, 10, 5],
   [10, 2, 8, 4, 7, 6, 1, 5, 15, 11, 9, 14, 3, 12, 13, 0]]

/-- Word `i` of a state vector. -/
def b2get (v : List Nat) (i : Nat) : Nat := v.getD i 0

/-- Quarter-round mixing function G of BLAKE2s. -/
def gMix (v : List Nat) (a b c d x y : Nat) : List Nat :=
  let va := (b2get v a + b2get v b + x) % 4294967296
  let vd := rotr32 (b2get v d ^^^ va) 16
  let vc := (b2get v c + vd) % 4294967296
  let vb := rotr32 (b2get v b ^^^ vc) 12
  let va2 := (va + vb + y) % 4294967296
  let vd2 := rotr32 (vd ^^^ va2) 8
  let vc2 := (vc + vd2) % 4294967296
  let vb2 := rotr32 (vb ^^^ vc2) 7
  (((v.set a va2).set b vb2).set c vc2).set d vd2

/-- One round of the BLAKE2s compression function. -/
def b2round (m s v : List Nat) : List Nat :=
  let v1 := gMix v 0 4 8 12 (b2get m (b2get s 0)) (b2get m (b2get s 1))
  let v2 := gMix v1 1 5 9 13 (b2get m (b2get s 2)) (b2get m (b2get s 3))
  let v3 := gMix v2 2 6 10 14 (b2get m (b2get s 4)) (b2get m (b2get s 5))
  let v4 := gMix v3 3 7 11 15 (b2get m (b2get s 6)) (b2get m (b2get s 7))
  let v5 := gMix v4 0 5 10 15 (b2get m (b2get s 8)) (b2get m (b2get s 9))
  let v6 := gMix v5 1 6 11 12 (b2get m (b2get s 10)) (b2get m (b2get s 11))
  let v7 := gMix v6 2 7 8 13 (b2get m (b2get s 12)) (b2get m (b2get s 13))
  gMix v7 3 4 9 14 (b2get m (b2get s 14)) (b2get m (b2get s 15))

/-- Compression function F of BLAKE2s: `h` the chain value, `m` the sixteen
message words, `t` the byte counter, `f` the final-block flag. -/
def b2compress (h m : List Nat) (t : Nat) (f : Bool) : List Nat :=
  let v0 := h ++ B2IV
  let v1 := v0.set 12 (b2get v0 12 ^^^ t % 4294967296)
  let v2 := v1.set 13 (b2get v1 13 ^^^ t / 4294967296 % 4294967296)
  let v3 := if f then v2.set 14 (b2get v2 14 ^^^ 4294967295) else v2
  let v := B2SIGMA.foldl (fun w s => b2round m s w) v3
  (List.range 8).map (fun i => b2get h i ^^^ b2get v i ^^^ b2get v (i + 8))

/-- Split a list into chunks of `n` elements (fuel-driven). -/
def chunksAux (n : Nat) : Nat → List α → List (List α)
  | 0, _ => []
  | _, [] => []
  | fuel + 1, l => l.take n :: chunksAux n fuel (l.drop n)

/-- Split a list into chunks of `n` elements. -/
def chunks (n : Nat) (l : List α) : List (List α) := chunksAux n l.length l

/-- Little-endian value of a byte string. -/
def leNat (bs : List Nat) : Nat :=
  bs.foldr (fun b acc => acc * 256 + b % 256) 0

/-- Sixteen little-endian message words of one 64-byte block. -/
def blockWords (block : List Nat) : List Nat :=
  (chunks 4 block).map leNat

/-- Message blocks of BLAKE2s: 64-byte chunks, the last zero-padded; an
empty message is a single zero block. -/
def b2blocks (data : List Nat) : List (List Nat) :=
  if data.isEmpty then [List.replicate 64 0]
  else (chunks 64 data).map (fun b => b ++ List.replicate (64 - b.length) 0)

/-- Sequential compression of the message blocks. -/
def b2process (data_len : Nat) : List Nat → Nat → List (List Nat) → List Nat
  | h, _, [] => h
  | h, _, [b] => b2compress h (blockWords b) data_len true
  | h, done, b :: rest => b2process data_len
      (b2compress h (blockWords b) (done + 64) false) (done + 64) rest

/-- Initial chain value of unkeyed BLAKE2s with 32-byte output:
`IV[0] XOR 0x01010020`. -/
def b2init : List Nat := B2IV.set 0 (b2get B2IV 0 ^^^ 0x01010020)

/-- Little-endian bytes of one 32-bit word. -/
def wordLE (w : Nat) : List Nat :=
  [w % 256, w / 256 % 256, w / 65536 % 256, w / 16777216 % 256]

/-- BLAKE2s-256 digest (32 bytes) of a byte string. -/
def blake2s256 (data : List Nat) : List Nat :=
  ((b2process data.length b2init 0 (b2blocks data)).map wordLE).flatten

/-- Modelled from the spec (section 6) and the reference test of
`crypto/kdf.rs`: `fr32::bytes_into_fr_repr_safe` forces a valid field
representative by clearing the two most significant bits of the last byte
(`res[31] &= 0b0011_1111`), which the test vector of `kdf.rs` pins down;
it does not reduce modulo the group order. -/
def bytes_into_fr_repr_safe (bs : Bytes) : Bytes :=
  bs.take 31 ++ [bs.getD 31 0 % 64]

/-- Group order of the BLS12-381 scalar field (the prime field embedding
domain elements). -/
def rModulus : Nat :=
  52435875175126190479447740508185965837690552500527637822603658699938581184513

/-- Embedding of `crypto::kdf::kdf`: BLAKE2s-256 digest of the data,
turned into a field element through `bytes_into_fr_repr_safe` and
`Fr::from_repr`; the field element is represented by its canonical
natural value. -/
def kdf (data : Bytes) : Nat :=
  leNat (bytes_into_fr_repr_safe (blake2s256 data))

/-- State of the temporary auxiliary data after a successful
`replicate` of `data` under replica id `id` with `L` layers, as
established from `transform_and_replicate_layers`: the encodings vector
holds the buffers of layers `1 … L-1`, the three trees hold the decoded
leaves of the data, the column commitments and the last layer, and
`os`/`es` hold the odd/even column hashes. -/
structure ReplicaFacts (M : HasherModel) (g0 : GraphModel) (id data : Bytes)
    (L : Nat) (taux : TemporaryAux) : Prop where
  hL2 : 2 ≤ L
  heven : L % 2 = 0
  hlen : data.length = g0.size * NODE_SIZE
  helen : taux.encodings.length = L - 1
  hencget : ∀ j, j < L - 1 → taux.encodings.get? j = some (layerBuf M id g0 data (j + 1))
  hblen : ∀ buf ∈ taux.encodings, buf.length = g0.size * NODE_SIZE
  hvalm : ∀ buf ∈ taux.encodings, ∀ y, y < g0.size → M.validDomain (nodeAt buf y) = true
  htd : taux.tree_d = (List.range g0.size).map (nodeAt data)
  htr : taux.tree_r_last = (List.range g0.size).map (nodeAt (layerBuf M id g0 data L))
  htc : taux.tree_c = (List.range g0.size).map
    (nodeAt (((taux.os.zip taux.es).map (fun p => M.hash2F p.1 p.2)).flatten))
  hosl : taux.os.length = g0.size
  hesl : taux.es.length = g0.size
  hos : ∀ i, i < g0.size → taux.os.get? i = some (M.hashF (((List.range (L / 2)).map
    (fun t => nodeAt (taux.encodings.getD (2 * t) []) i)).flatten))
  hes : ∀ i, i < g0.size → taux.es.get? i = some (M.hashF (((List.range ((L - 1) / 2)).map
    (fun t => nodeAt (taux.encodings.getD (2 * t + 1) []) (g0.invIndex i))).flatten))
  hpow : ∃ k, g0.size = 2 ^ k

/-! Concrete instantiations of the modelled collaborators, used to
evaluate the theorems below on closed inputs. -/

/-- Toy compression: fold the bytes into one byte below 251. -/
def toyHashByte (bs : Bytes) : Nat :=
  bs.foldl (fun a b => (a * 31 + b + 1) % 251) 7

/-- Toy 32-byte digest. -/
def toyWord (bs : Bytes) : Bytes :=
  List.replicate 31 0 ++ [toyHashByte bs]

/-- Concrete hash family satisfying the interface contracts of spec
section 6: 32-byte digests, bytewise modular addition as the field
`Encode` with its additive inverse as `Decode`, and a deterministic
challenge derivation always opening position 0. -/
def toyM : HasherModel where
  validDomain := fun b => b.length == 32 && b.all (· < 256)
  hashF := toyWord
  hash2F := fun a b => toyWord (a ++ b)
  kdfF := toyWord
  encodeF := fun k v => (k.zip v).map (fun p => (p.1 + p.2) % 256)
  decodeF := fun k v => (k.zip v).map (fun p => (p.2 + 256 - p.1 % 256) % 256)
  deriveF := fun _cnt leaves _id _seed _k => if leaves == 0 then [] else [0]

/-- Concrete two-node layer-0 graph: node 1 has the single base parent 0,
no expansion edges, and the identity involution. -/
def toyGraph : GraphModel where
  size := 2
  layer := 0
  baseF := fun _ x => if x == 1 then [0] else []
  expF := fun _ => []
  invIndex := fun x => x

/-- Two layers, one challenge per partition. -/
def toyLC : LayerChallenges := { layers := 2, challenges_count := 1 }

/-- Concrete public parameters. -/
def toyPP : PublicParams := { graph := toyGraph, layer_challenges := toyLC }

/-- Concrete replica id. -/
def toyReplicaId : Bytes := List.replicate 32 7

/-- Concrete 64-byte data buffer for the two-node graph. -/
def toyData : Bytes := List.replicate 64 3

/-- Placeholder commitments for claims whose statement never reads them. -/
def toyTau : Tau := { comm_d := [], comm_r := [] }

/-- Concrete public inputs with placeholder commitments. -/
def toyPub : PublicInputs :=
  { replica_id := toyReplicaId, seed := none, tau := toyTau, k := none }

/-- The toy graph with its layer counter set to 1, as it would be after a
single zigzag transform. -/
def toyGraphL1 : GraphModel := { toyGraph with layer := 1 }

/-- Public parameters whose graph is not at layer 0. -/
def toyPPL1 : PublicParams := { graph := toyGraphL1, layer_challenges := toyLC }

/-- A structurally empty partition proof (all five vectors empty). -/
def emptyProofM : ProofM :=
  { comm_d_proofs := [], comm_r_last_proofs := [], replica_column_proofs := [],
    encoding_proof_1 := [], encoding_proofs := [] }

/-- Reference column test fixture: five constant encoding buffers. -/
def toyEncodings5 : List Bytes :=
  [List.replicate 32 1, List.replicate 32 2, List.replicate 32 3,
   List.replicate 32 4, List.replicate 32 5]

/-- Output of a successful toy replication (placeholder on failure). -/
def toyReplicateOut : Tau × PersistentAux × TemporaryAux × Bytes :=
  match replicate toyM toyPP toyReplicaId toyData none with
  | .ok r => r
  | .error _ => (toyTau, { comm_c := [], comm_r_last := [] },
      { encodings := [], tree_d := [], tree_r_last := [], tree_c := [], es := [], os := [] },
      [])

/-- Public inputs built from the toy replication output, as the prover
and verifier receive them. -/
def toyPubC1 : PublicInputs :=
  { replica_id := toyReplicaId, seed := none, tau := toyReplicateOut.1, k := none }

/-- Private inputs built from the toy replication output. -/
def toyPrivC1 : PrivateInputs :=
  { p_aux := toyReplicateOut.2.1, t_aux := toyReplicateOut.2.2.1 }

/-- Partition proofs produced by the toy prover (one partition). -/
def toyProofs : List ProofM :=
  match prove_all_partitions toyM toyPP toyPubC1 toyPrivC1 1 with
  | .ok r => r
  | .error _ => []

/-! Generic lemmas about the embedded result monad and buffers. -/

theorem rr_bind_ok {α β : Type} {e : RR α} {k : α → RR β} {r : β}
    (h : e >>= k = .ok r) : ∃ a, e = .ok a ∧ k a = .ok r := by
  cases e with
  | ok a => exact ⟨a, rfl, h⟩
  | error f => simp [Bind.bind, Except.bind] at h

theorem rr_bind_ok_of {α β : Type} {e : RR α} {k : α → RR β} {a : α} {r : β}
    (he : e = .ok a) (hk : k a = .ok r) : e >>= k = .ok r := by
  subst he; simpa [Bind.bind, Except.bind] using hk

theorem rrMapM_cons {α β : Type} (f : α → RR β) (a : α) (t : List α) :
    (a :: t).rrMapM f = (f a >>= fun b => t.rrMapM f >>= fun r => .ok (b :: r)) := rfl

theorem mapM_ok_of {α β : Type} (l : List α) (f : α → RR β) (g : α → β)
    (h : ∀ a ∈ l, f a = .ok (g a)) : l.rrMapM f = .ok (l.map g) := by
  induction l with
  | nil => rfl
  | cons a t ih =>
    have ha := h a (List.mem_cons_self a t)
    have ht := ih (fun b hb => h b (List.mem_cons_of_mem a hb))
    simp [rrMapM_cons, ha, ht, Bind.bind, Except.bind]

theorem mapM_ok_length {α β : Type} {l : List α} {f : α → RR β} {r : List β}
    (h : l.rrMapM f = .ok r) : r.length = l.length := by
  induction l generalizing r with
  | nil =>
    simp only [List.rrMapM, Except.ok.injEq] at h
    simp [← h]
  | cons a t ih =>
    rw [rrMapM_cons] at h
    obtain ⟨b, hb, h2⟩ := rr_bind_ok h
    obtain ⟨rt, hrt, h3⟩ := rr_bind_ok h2
    simp only [Except.ok.injEq] at h3
    subst h3
    simp [ih hrt]

theorem mapM_ok_get {α β : Type} {l : List α} {f : α → RR β} {r : List β}
    (h : l.rrMapM f = .ok r) :
    ∀ i a, l.get? i = some a → ∃ b, f a = .ok b ∧ r.get? i = some b := by
  induction l generalizing r with
  | nil => intro i a hi; simp at hi
  | cons x t ih =>
    rw [rrMapM_cons] at h
    obtain ⟨b, hb, h2⟩ := rr_bind_ok h
    obtain ⟨rt, hrt, h3⟩ := rr_bind_ok h2
    simp only [Except.ok.injEq] at h3
    subst h3
    intro i a hi
    cases i with
    | zero => simp at hi; subst hi; exact ⟨b, hb, rfl⟩
    | succ j => exact ih hrt j a hi

theorem mapM_ok_elem {α β : Type} {l : List α} {f : α → RR β} {r : List β}
    (h : l.rrMapM f = .ok r) : ∀ a ∈ l, ∃ b, f a = .ok b := by
  intro a ha
  obtain ⟨i, hi⟩ := List.get?_of_mem ha
  obtain ⟨b, hb, _⟩ := mapM_ok_get h i a hi
  exact ⟨b, hb⟩


/-- C9: `Proof::serialize` never returns a byte encoding — its body is
`unimplemented!()`, so every call panics.  Shown at a concrete proof
value, refuting the claim that serialization succeeds rather than
failing. -/
theorem c9_counterexample_serialize_panics :
    ProofM.serialize emptyProofM = .error .panicked := rfl

/-- C9 (amended): `Proof::serialize` is unimplemented; every call panics
instead of producing a byte encoding. -/
theorem c9_serialize_always_panics (p : ProofM) :
    ProofM.serialize p = .error .panicked := rfl

/-- C10: `verify_all_partitions` on an empty proof slice does not return
`Ok(true)` for every public-parameter set: when the parameter graph is not
at layer 0 the leading `assert_eq!(graph_0.layer(), 0)` panics before the
(empty) partition conjunction is reached. -/
theorem c10_counterexample_layer :
    verify_all_partitions toyM toyPPL1 toyPub [] = .error .panicked := rfl

/-- C10 (amended): for public parameters whose graph is at layer 0 (as all
parameters produced by `setup` are), `verify_all_partitions` applied to an
empty slice of partition proofs returns `Ok(true)`: the conjunction over
partitions is vacuously satisfied. -/
theorem c10_verify_empty (M : HasherModel) (pp : PublicParams) (pub : PublicInputs)
    (h : pp.graph.layer = 0) : verify_all_partitions M pp pub [] = .ok true := by
  simp [verify_all_partitions, h, List.rrMapM, Bind.bind, Except.bind]

/-- C10 witness: the amended statement evaluated on the concrete toy
parameters. -/
theorem c10_verify_empty_witness :
    toyPP.graph.layer = 0 ∧ verify_all_partitions toyM toyPP toyPub [] = .ok true :=
  ⟨rfl, c10_verify_empty toyM toyPP toyPub rfl⟩

/-- C3 (code bug): the verifier panics on adversarial input instead of
returning `Ok(false)`.  With the toy parameters one challenge is derived,
and a partition proof whose `comm_d_proofs` vector is empty makes
`proof.comm_d_proofs[i]` index out of bounds, a panic — the spec requires
that verification never panics on adversarial input and that failed checks
yield `Ok(false)`. -/
theorem c3_verify_panics_on_malformed :
    verify_all_partitions toyM toyPP toyPub [emptyProofM] = .error .panicked := rfl

/-- C5 (code bug): `replicate` on a buffer whose length is not `N * 32`
panics via `assert_eq!(data.len(), nodes_count * NODE_SIZE)` instead of
returning an error, contradicting the spec's error-handling design
(wrong-length input returned as an error without side effects).  Shown on
a 65-byte buffer for the two-node graph (which expects 64 bytes). -/
theorem c5_replicate_panics_on_bad_length :
    replicate toyM toyPP toyReplicaId (List.replicate 65 2) none = .error .panicked := rfl

/-! Arithmetic facts about little-endian byte values, used for the
key-derivation function. -/

theorem leNat_cons (b : Nat) (t : Bytes) :
    leNat (b :: t) = leNat t * 256 + b % 256 := rfl

theorem leNat_append_single (l : Bytes) (a : Nat) :
    leNat (l ++ [a]) = leNat l + 256 ^ l.length * (a % 256) := by
  induction l with
  | nil => simp [leNat]
  | cons x t ih =>
    simp only [List.cons_append, leNat_cons, ih, List.length_cons]
    ring

theorem leNat_lt (l : Bytes) : leNat l < 256 ^ l.length := by
  induction l with
  | nil => simp [leNat]
  | cons x t ih =>
    have hx : x % 256 < 256 := Nat.mod_lt _ (by norm_num)
    simp only [leNat_cons, List.length_cons, pow_succ]
    nlinarith

theorem leNat_mask_top_two (bs : Bytes) (h : bs.length = 32) :
    leNat (bytes_into_fr_repr_safe bs) = leNat bs % 2 ^ 254 := by
  have h1 : (bs.drop 31).length = 1 := by simp [h]
  obtain ⟨b0, hd⟩ : ∃ b0, bs.drop 31 = [b0] := by
    cases hb : bs.drop 31 with
    | nil => rw [hb] at h1; simp at h1
    | cons x t =>
      cases t with
      | nil => exact ⟨x, rfl⟩
      | cons y t2 => rw [hb] at h1; simp at h1
  have hb0 : bs.getD 31 0 = b0 := by
    have hq : bs[31]? = some b0 := by
      have hq0 := List.getElem?_drop bs 31 0
      rw [hd] at hq0
      simpa using hq0.symm
    simp [List.getD_eq_getElem?_getD, hq]
  have hsplit : bs = bs.take 31 ++ [b0] := by
    conv_lhs => rw [← List.take_append_drop 31 bs]
    rw [hd]
  have ht : (bs.take 31).length = 31 := by simp [h]
  have hpow : (256 : Nat) ^ 31 = 2 ^ 248 := by norm_num
  have hL : leNat (bs.take 31) < 2 ^ 248 := by
    have := leNat_lt (bs.take 31)
    rwa [ht, hpow] at this
  show leNat (bs.take 31 ++ [bs.getD 31 0 % 64]) = leNat bs % 2 ^ 254
  rw [hb0, leNat_append_single, ht, hpow]
  conv_rhs => rw [hsplit, leNat_append_single, ht, hpow]
  omega

theorem b2compress_length (h m : List Nat) (t : Nat) (f : Bool) :
    (b2compress h m t f).length = 8 := by
  simp [b2compress]

theorem b2process_length (n : Nat) (blocks : List (List Nat)) (h : List Nat)
    (done : Nat) (hh : h.length = 8) : (b2process n h done blocks).length = 8 := by
  induction blocks generalizing h done with
  | nil => simpa [b2process] using hh
  | cons b rest ih =>
    cases rest with
    | nil => simp [b2process, b2compress_length]
    | cons b2 rest2 => simpa [b2process] using ih _ (done + 64) (b2compress_length _ _ _ _)

theorem wordLE_flatten_length (l : List Nat) :
    ((l.map wordLE).flatten).length = 4 * l.length := by
  induction l with
  | nil => simp
  | cons x t ih => simp [wordLE, ih]; ring

theorem blake2s256_length (data : List Nat) : (blake2s256 data).length = 32 := by
  rw [blake2s256, wordLE_flatten_length, b2process_length]
  rfl

theorem get?_eq_some_getD {α : Type} (l : List α) (i : Nat) (d : α) (h : i < l.length) :
    l.get? i = some (l.getD i d) := by
  simp [List.getD_eq_getElem?_getD, List.get?_eq_getElem?, List.getElem?_eq_getElem h]

set_option maxRecDepth 10000

/-- C6: `kdf` does not interpret the BLAKE2s-256 digest "reduced modulo
the group order".  On the repository's own test input, 64 bytes of `0x01`,
the digest's little-endian value exceeds the group order, and the value
obtained by clearing the two most significant bits (what
`bytes_into_fr_repr_safe` does, pinned by the reference test vector in
`crypto/kdf.rs`) differs from the value reduced modulo the group order. -/
theorem c6_counterexample_mod_order :
    ¬ kdf (List.replicate 64 1) =
      leNat (blake2s256 (List.replicate 64 1)) % rModulus := by decide

/-- C6 (amended): for every byte slice, `kdf` equals the 32-byte BLAKE2s-256
digest of the data interpreted as a little-endian integer with the two most
significant bits cleared — that is, reduced modulo `2^254` (which forces a
canonical representative below the group order), not modulo the group order
itself; and on 64 bytes of `0x01` it equals the literal field element of the
reference test of `crypto/kdf.rs`. -/
theorem c6_kdf_blake2s_masked :
    (∀ data : Bytes, kdf data = leNat (blake2s256 data) % 2 ^ 254) ∧
    kdf (List.replicate 64 1) =
      leNat [220, 60, 76, 126, 119, 247, 67, 162, 98, 94, 119, 28, 247, 18, 71, 208,
             167, 72, 33, 85, 59, 56, 96, 13, 9, 67, 49, 109, 95, 246, 152, 63] := by
  constructor
  · intro data
    rw [kdf, leNat_mask_top_two _ (blake2s256_length data)]
  · decide

/-! Column lemmas (claims C4 and C7). -/

/-- Success and value of the per-layer read of a column row. -/
theorem column_row_ok (M : HasherModel) (encodings : List Bytes) (x j : Nat)
    (hj : j < encodings.length)
    (hbuf : (x + 1) * NODE_SIZE ≤ (encodings.getD j []).length)
    (hval : M.validDomain (nodeAt (encodings.getD j []) x) = true) :
    (do tryFromBytes M (← get_node_at_layer encodings x j)) =
      (.ok (nodeAt (encodings.getD j []) x) : RR Bytes) := by
  have hq := get?_eq_some_getD encodings j [] hj
  rw [show (do tryFromBytes M (← get_node_at_layer encodings x j)) =
        (get_node_at_layer encodings x j >>= tryFromBytes M) from rfl]
  rw [get_node_at_layer, hq]
  simp only [data_at_node, if_pos hbuf]
  simp only [Bind.bind, Except.bind, tryFromBytes]
  rw [if_pos hval]

/-- Characterization of `get_odd_column` for even layer counts: the rows
read the buffers of the even 0-indexed layers at position `x`. -/
theorem get_odd_column_eq (M : HasherModel) (encodings : List Bytes) (layers x : Nat)
    (heven : layers % 2 = 0) (hpos : 0 < layers)
    (hlen : encodings.length = layers - 1)
    (hbuf : ∀ buf ∈ encodings, (x + 1) * NODE_SIZE ≤ buf.length)
    (hval : ∀ buf ∈ encodings, M.validDomain (nodeAt buf x) = true) :
    get_odd_column M encodings layers x =
      .ok { index := x,
            rows := (List.range (layers / 2)).map
              (fun i => nodeAt (encodings.getD (2 * i) []) x),
            kind := .odd } := by
  have hhalf : (layers - 0 + 1) / 2 = layers / 2 := by omega
  have hmem : ∀ j ∈ stepBy2 0 layers, j < encodings.length := by
    intro j hj
    simp only [stepBy2, List.mem_map, List.mem_range, hhalf] at hj
    obtain ⟨i, hi, rfl⟩ := hj
    omega
  have hrow : ∀ j ∈ stepBy2 0 layers,
      (do tryFromBytes M (← get_node_at_layer encodings x j)) =
        (.ok (nodeAt (encodings.getD j []) x) : RR Bytes) := by
    intro j hj
    have hj' := hmem j hj
    have hmeml : encodings.getD j [] ∈ encodings :=
      List.get?_mem (get?_eq_some_getD encodings j [] hj')
    exact column_row_ok M encodings x j hj' (hbuf _ hmeml) (hval _ hmeml)
  have hmapped := mapM_ok_of (stepBy2 0 layers) _ _ hrow
  rw [get_odd_column]
  rw [show ∀ e : RR (List Bytes), (do
        let rows ← e
        (.ok { index := x, rows := rows, kind := .odd } : RR ColumnM)) =
        (e >>= fun rows => .ok { index := x, rows := rows, kind := .odd }) from fun _ => rfl]
  rw [hmapped]
  have h2 : (layers + 1) / 2 = layers / 2 := by omega
  simp [Bind.bind, Except.bind, stepBy2, List.map_map, Function.comp, h2]

/-- Characterization of `get_even_column` (any layer count): the rows read
the buffers of the odd 0-indexed layers, strictly below `layers - 1`, at
position `y`. -/
theorem get_even_column_eq (M : HasherModel) (encodings : List Bytes) (layers y : Nat)
    (hlen : encodings.length = layers - 1)
    (hbuf : ∀ buf ∈ encodings, (y + 1) * NODE_SIZE ≤ buf.length)
    (hval : ∀ buf ∈ encodings, M.validDomain (nodeAt buf y) = true) :
    get_even_column M encodings layers y =
      .ok { index := y,
            rows := (List.range ((layers - 1) / 2)).map
              (fun i => nodeAt (encodings.getD (2 * i + 1) []) y),
            kind := .even } := by
  have hhalf : (layers - 1 - 1 + 1) / 2 = (layers - 1) / 2 := by omega
  have hmem : ∀ j ∈ stepBy2 1 (layers - 1), j < encodings.length := by
    intro j hj
    simp only [stepBy2, List.mem_map, List.mem_range, hhalf] at hj
    obtain ⟨i, hi, rfl⟩ := hj
    omega
  have hrow : ∀ j ∈ stepBy2 1 (layers - 1),
      (do tryFromBytes M (← get_node_at_layer encodings y j)) =
        (.ok (nodeAt (encodings.getD j []) y) : RR Bytes) := by
    intro j hj
    have hj' := hmem j hj
    have hmeml : encodings.getD j [] ∈ encodings :=
      List.get?_mem (get?_eq_some_getD encodings j [] hj')
    exact column_row_ok M encodings y j hj' (hbuf _ hmeml) (hval _ hmeml)
  have hmapped := mapM_ok_of (stepBy2 1 (layers - 1)) _ _ hrow
  rw [get_even_column]
  rw [show ∀ e : RR (List Bytes), (do
        let rows ← e
        (.ok { index := y, rows := rows, kind := .even } : RR ColumnM)) =
        (e >>= fun rows => .ok { index := y, rows := rows, kind := .even }) from fun _ => rfl]
  rw [hmapped]
  simp only [Bind.bind, Except.bind, Except.ok.injEq, ColumnM.mk.injEq, true_and, and_true]
  rw [stepBy2, hhalf, List.map_map]
  apply List.map_congr_left
  intro i _
  simp [Function.comp, Nat.add_comm]

/-- Characterization of `get_full_column`: row `i` reads the buffer of
0-indexed layer `i`, at the inverted position on 0-indexed odd layers. -/
theorem get_full_column_eq (M : HasherModel) (encodings : List Bytes) (g : GraphModel)
    (layers x : Nat)
    (hlen : encodings.length = layers - 1)
    (hbufx : ∀ buf ∈ encodings, (x + 1) * NODE_SIZE ≤ buf.length)
    (hbufi : ∀ buf ∈ encodings, (g.invIndex x + 1) * NODE_SIZE ≤ buf.length)
    (hvalx : ∀ buf ∈ encodings, M.validDomain (nodeAt buf x) = true)
    (hvali : ∀ buf ∈ encodings, M.validDomain (nodeAt buf (g.invIndex x)) = true) :
    get_full_column M encodings g layers x =
      .ok { index := x,
            rows := (List.range (layers - 1)).map
              (fun i => nodeAt (encodings.getD i [])
                (if (i + 1) % 2 == 0 then g.invIndex x else x)),
            kind := .all } := by
  have hrow : ∀ j ∈ List.range (layers - 1),
      (do tryFromBytes M
            (← get_node_at_layer encodings (if (j + 1) % 2 == 0 then g.invIndex x else x) j)) =
        (.ok (nodeAt (encodings.getD j []) (if (j + 1) % 2 == 0 then g.invIndex x else x))
          : RR Bytes) := by
    intro j hj
    rw [List.mem_range] at hj
    have hj' : j < encodings.length := by omega
    have hmeml : encodings.getD j [] ∈ encodings :=
      List.get?_mem (get?_eq_some_getD encodings j [] hj')
    by_cases hpar : (j + 1) % 2 == 0
    · simp only [hpar, if_pos]
      exact column_row_ok M encodings _ j hj' (hbufi _ hmeml) (hvali _ hmeml)
    · simp only [if_neg hpar]
      exact column_row_ok M encodings _ j hj' (hbufx _ hmeml) (hvalx _ hmeml)
  have hmapped := mapM_ok_of (List.range (layers - 1)) _ _ hrow
  rw [get_full_column]
  rw [show ∀ e : RR (List Bytes), (do
        let rows ← e
        (.ok { index := x, rows := rows, kind := .all } : RR ColumnM)) =
        (e >>= fun rows => .ok { index := x, rows := rows, kind := .all }) from fun _ => rfl]
  rw [hmapped]
  simp [Bind.bind, Except.bind]

/-! De-interleaving lemmas relating the full column to the odd and even
columns. -/

theorem altEven_cons (a : α) (t : List α) : altEven (a :: t) = a :: altOdd t := rfl

theorem altOdd_cons (a : α) (t : List α) : altOdd (a :: t) = altEven t := rfl

theorem interleave_nil (ys : List α) : interleave [] ys = ys := by
  simp [interleave]

theorem interleave_cons (x : α) (xs ys : List α) :
    interleave (x :: xs) ys = x :: interleave ys xs := by
  simp [interleave]

theorem interleave_alt (l : List α) : interleave (altEven l) (altOdd l) = l := by
  induction l with
  | nil => simp [altEven, altOdd, interleave_nil]
  | cons x t ih => rw [altEven_cons, altOdd_cons, interleave_cons, ih]

theorem alt_range_map (n : Nat) (f : Nat → α) :
    altEven ((List.range n).map f) = (List.range ((n + 1) / 2)).map (fun i => f (2 * i)) ∧
    altOdd ((List.range n).map f) = (List.range (n / 2)).map (fun i => f (2 * i + 1)) := by
  induction n generalizing f with
  | zero => simp [altEven, altOdd]
  | succ n ih =>
    rw [List.range_succ_eq_map]
    simp only [List.map_cons, List.map_map, altEven_cons, altOdd_cons]
    constructor
    · rw [(ih (f ∘ Nat.succ)).2]
      have h2 : (n + 1 + 1) / 2 = n / 2 + 1 := by omega
      rw [h2, List.range_succ_eq_map, List.map_cons, List.map_map]
      refine congrArg (f 0 :: ·) ?_
      apply List.map_congr_left
      intro i _
      simp only [Function.comp_apply]
      congr 1
    · rw [(ih (f ∘ Nat.succ)).1]
      apply List.map_congr_left
      intro i _
      simp only [Function.comp_apply]

/-- Positions of the rows of a full column: `x` on 0-indexed even layers,
`inv_index(x)` on 0-indexed odd layers. -/
theorem full_column_rows_split (encodings : List Bytes) (layers x inv : Nat)
    (hpos : 0 < layers) :
    altEven ((List.range (layers - 1)).map
        (fun i => nodeAt (encodings.getD i []) (if (i + 1) % 2 == 0 then inv else x))) =
      (List.range (layers / 2)).map (fun i => nodeAt (encodings.getD (2 * i) []) x) ∧
    altOdd ((List.range (layers - 1)).map
        (fun i => nodeAt (encodings.getD i []) (if (i + 1) % 2 == 0 then inv else x))) =
      (List.range ((layers - 1) / 2)).map
        (fun i => nodeAt (encodings.getD (2 * i + 1) []) inv) := by
  have hsplit := alt_range_map (layers - 1)
    (fun i => nodeAt (encodings.getD i []) (if (i + 1) % 2 == 0 then inv else x))
  have hn : layers - 1 + 1 = layers := by omega
  constructor
  · rw [hsplit.1, hn]
    apply List.map_congr_left
    intro i _
    have hmod : (2 * i + 1) % 2 = 1 := by omega
    simp [hmod]
  · rw [hsplit.2]
    apply List.map_congr_left
    intro i _
    have hmod : (2 * i + 1 + 1) % 2 = 0 := by omega
    simp [hmod]

/-- C4: the column-consistency property does not hold for every encodings
vector with `encodings.len() == L - 1`: for odd `L` (here `L = 3`) the
full column exists but `get_odd_column` reads past the end of the vector
and panics, so its rows do not exist and no interleaving or hash equation
can hold at this input. -/
theorem c4_counterexample_odd_layers :
    get_full_column toyM [List.replicate 32 1, List.replicate 32 2] toyGraph 3 0 =
      .ok { index := 0, rows := [List.replicate 32 1, List.replicate 32 2],
            kind := .all } ∧
    get_odd_column toyM [List.replicate 32 1, List.replicate 32 2] 3 0 =
      .error .panicked :=
  ⟨rfl, rfl⟩

/-- C4 (amended): for every even layer count `L`, node position `x`, and
encodings vector of length `L - 1` whose buffers contain valid domain
elements at `x` and `inv_index(x)`, the three columns exist, the rows of
the full column at `x` are the interleaving of the rows of the odd column
at `x` with the rows of the even column at `inv_index(x)`, and the full
column's hash is `H2` of the two column hashes. -/
theorem c4_column_consistency (M : HasherModel) (encodings : List Bytes) (g : GraphModel)
    (layers x : Nat) (heven : layers % 2 = 0) (hpos : 0 < layers)
    (hlen : encodings.length = layers - 1)
    (hbufx : ∀ buf ∈ encodings, (x + 1) * NODE_SIZE ≤ buf.length)
    (hbufi : ∀ buf ∈ encodings, (g.invIndex x + 1) * NODE_SIZE ≤ buf.length)
    (hvalx : ∀ buf ∈ encodings, M.validDomain (nodeAt buf x) = true)
    (hvali : ∀ buf ∈ encodings, M.validDomain (nodeAt buf (g.invIndex x)) = true) :
    ∃ fc oc ec,
      get_full_column M encodings g layers x = .ok fc ∧
      get_odd_column M encodings layers x = .ok oc ∧
      get_even_column M encodings layers (g.invIndex x) = .ok ec ∧
      fc.rows = interleave oc.rows ec.rows ∧
      columnHash M fc = M.hash2F (columnHash M oc) (columnHash M ec) := by
  have hsplit := full_column_rows_split encodings layers x (g.invIndex x) hpos
  refine ⟨_, _, _, get_full_column_eq M encodings g layers x hlen hbufx hbufi hvalx hvali,
    get_odd_column_eq M encodings layers x heven hpos hlen hbufx hvalx,
    get_even_column_eq M encodings layers (g.invIndex x) hlen hbufi hvali, ?_, ?_⟩
  · rw [← hsplit.1, ← hsplit.2, interleave_alt]
  · rw [columnHash, columnHash, columnHash]
    simp only []
    rw [hsplit.1, hsplit.2]

/-- C4 witness: the amended statement on the reference test fixture
(five constant encoding buffers, `L = 6`, `x = 0`). -/
theorem c4_column_consistency_witness :
    toyEncodings5.length = 6 - 1 ∧
    (∃ fc oc ec,
      get_full_column toyM toyEncodings5 toyGraph 6 0 = .ok fc ∧
      get_odd_column toyM toyEncodings5 6 0 = .ok oc ∧
      get_even_column toyM toyEncodings5 6 (toyGraph.invIndex 0) = .ok ec ∧
      fc.rows = interleave oc.rows ec.rows ∧
      columnHash toyM fc = toyM.hash2F (columnHash toyM oc) (columnHash toyM ec)) :=
  ⟨rfl, c4_column_consistency toyM toyEncodings5 toyGraph 6 0 rfl (by decide) rfl
    (by decide) (by decide) (by decide) (by decide)⟩

/-- C7: `get_odd_column` does not return `Ok` for every layer count with
`encodings.len() == L - 1`: for odd `L` (here `L = 3`, two encoding
buffers) it reads `encodings[L-1]`, one past the end of the vector, and
panics. -/
theorem c7_counterexample_odd_layers :
    get_odd_column toyM [List.replicate 32 1, List.replicate 32 2] 3 0 =
      .error .panicked := rfl

/-- C7 (amended): for every even layer count `L ≥ 2`, every encodings
vector of length `L - 1` whose buffers contain node `x` as a valid domain
element, `get_odd_column` returns `Ok` of the odd column at `x` whose rows
are the labels `E_l[x]` for the 1-indexed odd layers `l ∈ {1, 3, …, L-1}`,
in increasing layer order (row `i` reads the buffer of 0-indexed layer
`2i`). -/
theorem c7_odd_column (M : HasherModel) (encodings : List Bytes) (layers x : Nat)
    (heven : layers % 2 = 0) (hpos : 0 < layers)
    (hlen : encodings.length = layers - 1)
    (hbuf : ∀ buf ∈ encodings, (x + 1) * NODE_SIZE ≤ buf.length)
    (hval : ∀ buf ∈ encodings, M.validDomain (nodeAt buf x) = true) :
    get_odd_column M encodings layers x =
      .ok { index := x,
            rows := (List.range (layers / 2)).map
              (fun i => nodeAt (encodings.getD (2 * i) []) x),
            kind := .odd } :=
  get_odd_column_eq M encodings layers x heven hpos hlen hbuf hval

/-- Inversion for `Except.map`. -/
theorem rr_map_ok {α β : Type} {e : RR α} {f : α → β} {b : β}
    (h : e.map f = .ok b) : ∃ a, e = .ok a ∧ b = f a := by
  cases e with
  | ok a =>
    refine ⟨a, rfl, ?_⟩
    simpa [Except.map] using h.symm
  | error er => simp [Except.map] at h

/-- Values of a successful monadic map are pointwise characterized. -/
theorem mapM_ok_eq_map {α β : Type} {l : List α} {f : α → RR β} {r : List β} (g : α → β)
    (h : l.rrMapM f = .ok r) (hchar : ∀ a ∈ l, ∀ b, f a = .ok b → b = g a) :
    r = l.map g := by
  induction l generalizing r with
  | nil =>
    simp only [List.rrMapM, Except.ok.injEq] at h
    simp [← h]
  | cons a t ih =>
    rw [rrMapM_cons] at h
    obtain ⟨b, hb, h2⟩ := rr_bind_ok h
    obtain ⟨rt, hrt, h3⟩ := rr_bind_ok h2
    simp only [Except.ok.injEq] at h3
    subst h3
    rw [List.map_cons,
      ← hchar a (List.mem_cons_self a t) b hb,
      ← ih hrt (fun c hc => hchar c (List.mem_cons_of_mem a hc))]

/-- Inversion of a successful per-layer column row read. -/
theorem column_row_ok_inv (M : HasherModel) (encodings : List Bytes) (y j : Nat) (b : Bytes)
    (h : (do tryFromBytes M (← get_node_at_layer encodings y j)) = (.ok b : RR Bytes)) :
    b = nodeAt (encodings.getD j []) y := by
  rw [show (do tryFromBytes M (← get_node_at_layer encodings y j)) =
      (get_node_at_layer encodings y j >>= tryFromBytes M) from rfl] at h
  obtain ⟨a, ha, hb⟩ := rr_bind_ok h
  rw [get_node_at_layer] at ha
  cases hq : encodings.get? j with
  | none => rw [hq] at ha; exact absurd ha (by simp)
  | some buf =>
    rw [hq] at ha
    simp only [data_at_node] at ha
    split at ha
    · simp only [tryFromBytes] at hb
      split at hb
      · have h1 : a = nodeAt buf y := by simpa using ha.symm
        have h2 : b = a := by simpa using hb.symm
        have h3 : encodings.getD j [] = buf := by
          simp [List.getD_eq_getElem?_getD, ← List.get?_eq_getElem?, hq]
        rw [h2, h1, h3]
      · exact absurd hb (by simp)
    · exact absurd ha (by simp)

/-- Normal form of the odd-0-indexed-layer list. -/
theorem stepBy2_one_eq (n : Nat) :
    stepBy2 1 n = (List.range (n / 2)).map (fun i => 2 * i + 1) := by
  rw [stepBy2]
  have h2 : (n - 1 + 1) / 2 = n / 2 := by omega
  rw [h2]
  apply List.map_congr_left
  intro i _
  omega

/-- Inversion for `get_even_column`: a successful call returns the even
column whose rows read the odd 0-indexed layers at `y`. -/
theorem get_even_column_ok_inv (M : HasherModel) (encodings : List Bytes) (layers y : Nat)
    (col : ColumnM) (h : get_even_column M encodings layers y = .ok col) :
    col = { index := y,
            rows := (List.range ((layers - 1) / 2)).map
              (fun i => nodeAt (encodings.getD (2 * i + 1) []) y),
            kind := .even } := by
  rw [get_even_column] at h
  rw [show ∀ e : RR (List Bytes), (do
        let rows ← e
        (.ok { index := y, rows := rows, kind := .even } : RR ColumnM)) =
        (e >>= fun rows => .ok { index := y, rows := rows, kind := .even })
      from fun _ => rfl] at h
  obtain ⟨rows, hrows, hcol⟩ := rr_bind_ok h
  have hr := mapM_ok_eq_map (fun j => nodeAt (encodings.getD j []) y) hrows
    (fun j _ b hb => column_row_ok_inv M encodings y j b hb)
  have hcol' : col = { index := y, rows := rows, kind := .even } := by
    simpa using hcol.symm
  rw [hcol', hr, stepBy2_one_eq]
  simp [List.map_map, Function.comp]

/-- Inversion of a successful replication (with no precomputed data tree):
each stage of `transform_and_replicate_layers` succeeded and the returned
commitments and auxiliary state are the roots and intermediate values of
those stages. -/
theorem transform_ok_parts (M : HasherModel) (g : GraphModel) (lc : LayerChallenges)
    (id data : Bytes) (tau : Tau) (paux : PersistentAux) (taux : TemporaryAux)
    (replica : Bytes)
    (h : transform_and_replicate_layers M g lc id data none = .ok (tau, paux, taux, replica)) :
    data.length = g.size * NODE_SIZE ∧
    0 < lc.layers ∧
    buildTree M data = .ok taux.tree_d ∧
    encodeLoop M id g.size lc.layers g data = .ok (taux.encodings, replica) ∧
    taux.encodings.length = lc.layers - 1 ∧
    (List.range g.size).rrMapM (fun x =>
      (get_odd_column M taux.encodings lc.layers x).map (columnHash M)) = .ok taux.os ∧
    (List.range g.size).rrMapM (fun x =>
      (get_even_column M taux.encodings lc.layers (g.invIndex x)).map (columnHash M)) =
      .ok taux.es ∧
    buildTree M (((taux.os.zip taux.es).map (fun p => M.hash2F p.1 p.2)).flatten) =
      .ok taux.tree_c ∧
    buildTree M replica = .ok taux.tree_r_last ∧
    tau = { comm_d := merkleRoot M.hash2F taux.tree_d,
            comm_r := M.hashF (merkleRoot M.hash2F taux.tree_c ++
              merkleRoot M.hash2F taux.tree_r_last) } ∧
    paux = { comm_c := merkleRoot M.hash2F taux.tree_c,
             comm_r_last := merkleRoot M.hash2F taux.tree_r_last } := by
  simp only [transform_and_replicate_layers] at h
  split at h
  case isFalse => exact absurd h (by simp)
  rename_i hdata
  split at h
  case isFalse => exact absurd h (by simp)
  rename_i hlay
  obtain ⟨tree_d, htd, h⟩ := rr_bind_ok h
  obtain ⟨encPair, henc, h⟩ := rr_bind_ok h
  obtain ⟨encodings, r_last⟩ := encPair
  simp only at h
  split at h
  case isFalse => exact absurd h (by simp)
  rename_i hlen
  obtain ⟨os, hos, h⟩ := rr_bind_ok h
  obtain ⟨es, hes, h⟩ := rr_bind_ok h
  obtain ⟨tree_c, htc, h⟩ := rr_bind_ok h
  obtain ⟨tree_r_last, htr, h⟩ := rr_bind_ok h
  simp only [Except.ok.injEq, Prod.mk.injEq] at h
  obtain ⟨htau, hpaux, htaux, hrep⟩ := h
  subst htau hpaux hrep
  rw [← htaux]
  refine ⟨by simpa using hdata, hlay, by simpa using htd, henc,
    by simpa using hlen, hos, hes, htc, htr, rfl, rfl⟩

/-- C8: after a successful `replicate`, the stored even-column hash
`es[i]` is `H` of the concatenated labels `E_l[inv_index(i)]` for the
1-indexed even layers `l ∈ {2, 4, …} ∩ [1, L-1]` in increasing order: row
`t` reads the buffer of 0-indexed layer `2t + 1`, i.e. `E_{2t+2}`, and the
position inversion is applied when the even column is fetched. -/
theorem c8_even_column_hashes (M : HasherModel) (pp : PublicParams) (id data : Bytes)
    (tau : Tau) (paux : PersistentAux) (taux : TemporaryAux) (replica : Bytes)
    (hrep : replicate M pp id data none = .ok (tau, paux, taux, replica)) :
    ∀ i < pp.graph.size, taux.es.get? i = some (M.hashF
      (((List.range ((pp.layer_challenges.layers - 1) / 2)).map
        (fun t => nodeAt (taux.encodings.getD (2 * t + 1) [])
          (pp.graph.invIndex i))).flatten)) := by
  intro i hi
  obtain ⟨-, -, -, -, -, -, hes, -, -, -, -⟩ :=
    transform_ok_parts M pp.graph pp.layer_challenges id data tau paux taux replica hrep
  have hr : (List.range pp.graph.size).get? i = some i := by
    simp [List.get?_eq_getElem?, List.getElem?_range hi]
  obtain ⟨b, hb, hbi⟩ := mapM_ok_get hes i i hr
  obtain ⟨col, hcol, hhash⟩ := rr_map_ok hb
  have hcolval := get_even_column_ok_inv M taux.encodings pp.layer_challenges.layers
    (pp.graph.invIndex i) col hcol
  rw [hbi, hhash, hcolval]
  rfl

/-- The toy replication succeeds, with `toyReplicateOut` as its output. -/
theorem toyReplicate_ok :
    replicate toyM toyPP toyReplicaId toyData none = .ok toyReplicateOut := by
  have hok : (replicate toyM toyPP toyReplicaId toyData none).isOk = true := by decide
  cases he : replicate toyM toyPP toyReplicaId toyData none with
  | ok r => simp [toyReplicateOut, he]
  | error e => rw [he] at hok; simp [Except.isOk, Except.toBool] at hok

/-- C8 witness: the toy replication succeeds and the stored even-column
hash at position 0 matches the specification (with `L = 2` the even column
is empty, so `es[0]` is the hash of the empty concatenation). -/
theorem c8_even_column_hashes_witness :
    replicate toyM toyPP toyReplicaId toyData none = .ok toyReplicateOut ∧
    0 < toyPP.graph.size ∧
    toyReplicateOut.2.2.1.es.get? 0 = some (toyM.hashF
      (((List.range ((toyPP.layer_challenges.layers - 1) / 2)).map
        (fun t => nodeAt (toyReplicateOut.2.2.1.encodings.getD (2 * t + 1) [])
          (toyPP.graph.invIndex 0))).flatten)) := by
  refine ⟨toyReplicate_ok, by decide, ?_⟩
  exact c8_even_column_hashes toyM toyPP toyReplicaId toyData _ _ _ _ toyReplicate_ok
    0 (by decide)

/-! Buffer-slice lemmas for the encoder. -/

theorem nodeAt_length {data : Bytes} {v : Nat} (h : (v + 1) * NODE_SIZE ≤ data.length) :
    (nodeAt data v).length = NODE_SIZE := by
  simp only [nodeAt, List.length_take, List.length_drop]
  simp only [NODE_SIZE] at h ⊢
  omega

theorem nodeAt_all_lt {data : Bytes} {v : Nat} (h : data.all (· < 256) = true) :
    (nodeAt data v).all (· < 256) = true := by
  simp only [List.all_eq_true] at h ⊢
  intro x hx
  exact h x (List.mem_of_mem_drop (List.mem_of_mem_take hx))

theorem updateNode_length {data val : Bytes} {v : Nat}
    (hb : (v + 1) * NODE_SIZE ≤ data.length) (hv : val.length = NODE_SIZE) :
    (updateNode data v val).length = data.length := by
  simp only [updateNode, List.length_append, List.length_take, List.length_drop, hv]
  simp only [NODE_SIZE] at hb ⊢
  omega

theorem nodeAt_append_left {A rest : Bytes} {w : Nat}
    (h : (w + 1) * NODE_SIZE ≤ A.length) :
    nodeAt (A ++ rest) w = nodeAt A w := by
  rw [nodeAt, List.drop_append_eq_append_drop, List.take_append_eq_append_take]
  have h3 : w * NODE_SIZE - A.length = 0 := by simp only [NODE_SIZE] at *; omega
  have h2 : NODE_SIZE - (List.drop (w * NODE_SIZE) A).length = 0 := by
    simp only [List.length_drop]
    simp only [NODE_SIZE] at *
    omega
  rw [h3, h2, List.drop_zero, List.take_zero, List.append_nil]
  rfl

theorem nodeAt_append_right {A rest : Bytes} {w k : Nat} (h : A.length = k * NODE_SIZE)
    (hw : k ≤ w) : nodeAt (A ++ rest) w = nodeAt rest (w - k) := by
  rw [nodeAt, List.drop_append_eq_append_drop]
  have h1 : List.drop (w * NODE_SIZE) A = [] :=
    List.drop_eq_nil_of_le (by rw [h]; exact Nat.mul_le_mul_right _ hw)
  rw [h1, List.nil_append, h, nodeAt]
  congr 2
  simp only [NODE_SIZE] at *
  omega

theorem nodeAt_take {data : Bytes} {v w : Nat} (h : (w + 1) * NODE_SIZE ≤ v * NODE_SIZE) :
    nodeAt (data.take (v * NODE_SIZE)) w = nodeAt data w := by
  rw [nodeAt, List.drop_take, List.take_take, nodeAt]
  congr 1
  simp only [NODE_SIZE] at *
  omega

theorem nodeAt_drop {data : Bytes} {k i : Nat} :
    nodeAt (data.drop (k * NODE_SIZE)) i = nodeAt data (i + k) := by
  rw [nodeAt, List.drop_drop, nodeAt]
  congr 2
  ring

theorem nodeAt_updateNode_self {data val : Bytes} {v : Nat}
    (hb : (v + 1) * NODE_SIZE ≤ data.length) (hv : val.length = NODE_SIZE) :
    nodeAt (updateNode data v val) v = val := by
  have htl : (data.take (v * NODE_SIZE)).length = v * NODE_SIZE := by
    simp only [List.length_take]
    simp only [NODE_SIZE] at hb ⊢
    omega
  rw [updateNode, List.append_assoc, nodeAt_append_right htl (le_refl v), Nat.sub_self,
    nodeAt_append_left (by rw [hv]; simp [NODE_SIZE]), nodeAt, Nat.zero_mul,
    List.drop_zero, List.take_of_length_le (le_of_eq hv)]

theorem nodeAt_updateNode_other {data val : Bytes} {v w : Nat} (hne : w ≠ v)
    (hb : (v + 1) * NODE_SIZE ≤ data.length) (hv : val.length = NODE_SIZE) :
    nodeAt (updateNode data v val) w = nodeAt data w := by
  have htl : (data.take (v * NODE_SIZE)).length = v * NODE_SIZE := by
    simp only [List.length_take]
    simp only [NODE_SIZE] at hb ⊢
    omega
  rcases Nat.lt_or_ge w v with hlt | hge
  · rw [updateNode, List.append_assoc,
      nodeAt_append_left (by rw [htl]; exact Nat.mul_le_mul_right _ hlt),
      nodeAt_take (Nat.mul_le_mul_right _ hlt)]
  · have hgt : v < w := Nat.lt_of_le_of_ne hge (Ne.symm hne)
    have hpl : (data.take (v * NODE_SIZE) ++ val).length = (v + 1) * NODE_SIZE := by
      simp only [List.length_append, htl, hv, Nat.succ_mul]
    rw [updateNode, nodeAt_append_right hpl hgt]
    have hd : v * NODE_SIZE + NODE_SIZE = (v + 1) * NODE_SIZE := by ring
    rw [hd, nodeAt_drop]
    congr 1
    omega

theorem flatten_nodeAt {data : Bytes} {n : Nat} (h : data.length = n * NODE_SIZE) :
    ((List.range n).map (nodeAt data)).flatten = data := by
  induction n generalizing data with
  | zero =>
    simp only [Nat.zero_mul] at h
    simp [List.eq_nil_of_length_eq_zero h]
  | succ m ih =>
    rw [List.range_succ_eq_map, List.map_cons, List.map_map]
    have h0 : nodeAt data 0 = data.take NODE_SIZE := by simp [nodeAt]
    have hs : (nodeAt data ∘ Nat.succ) = nodeAt (data.drop NODE_SIZE) := by
      funext i
      rw [Function.comp_apply, show data.drop NODE_SIZE = data.drop (1 * NODE_SIZE) by
        rw [Nat.one_mul], nodeAt_drop]
    rw [h0, hs]
    have hdl : (data.drop NODE_SIZE).length = m * NODE_SIZE := by
      simp only [List.length_drop, h, Nat.succ_mul]
      omega
    simp only [List.flatten_cons, ih hdl]
    exact List.take_append_drop _ _

/-! Encoder lemmas: the in-place fold writes each node once, from the
already-final labels of its parents. -/

theorem encFold_succ (M : HasherModel) (g : GraphModel) (id : Bytes) (buf : Bytes) (m : Nat) :
    (List.range (m + 1)).foldl (vdeStep M g id) buf =
      vdeStep M g id ((List.range m).foldl (vdeStep M g id) buf) m := by
  rw [List.range_succ, List.foldl_append, List.foldl_cons, List.foldl_nil]

theorem encFold_length (M : HasherModel) (g : GraphModel) (id : Bytes) (W : HasherWf M)
    {buf : Bytes} {N : Nat} (hlen : buf.length = N * NODE_SIZE) :
    ∀ m, m ≤ N → ((List.range m).foldl (vdeStep M g id) buf).length = N * NODE_SIZE := by
  intro m
  induction m with
  | zero => intro _; simpa using hlen
  | succ k ih =>
    intro hk
    have hck := ih (Nat.le_of_succ_le hk)
    have hb : (k + 1) * NODE_SIZE ≤ ((List.range k).foldl (vdeStep M g id) buf).length := by
      rw [hck]; exact Nat.mul_le_mul_right _ hk
    have hval : (M.encodeF (encKey M g id ((List.range k).foldl (vdeStep M g id) buf) k)
        (nodeAt ((List.range k).foldl (vdeStep M g id) buf) k)).length = NODE_SIZE :=
      W.encode_len _ _ (W.kdf_len _) (nodeAt_length hb)
    rw [encFold_succ, vdeStep, updateNode_length hb hval, hck]

theorem encFold_above (M : HasherModel) (g : GraphModel) (id : Bytes) (W : HasherWf M)
    {buf : Bytes} {N : Nat} (hlen : buf.length = N * NODE_SIZE) :
    ∀ m, m ≤ N → ∀ y, m ≤ y →
      nodeAt ((List.range m).foldl (vdeStep M g id) buf) y = nodeAt buf y := by
  intro m
  induction m with
  | zero => intro _ y _; rfl
  | succ k ih =>
    intro hk y hy
    have hck := encFold_length M g id W hlen k (Nat.le_of_succ_le hk)
    have hb : (k + 1) * NODE_SIZE ≤ ((List.range k).foldl (vdeStep M g id) buf).length := by
      rw [hck]; exact Nat.mul_le_mul_right _ hk
    have hval : (M.encodeF (encKey M g id ((List.range k).foldl (vdeStep M g id) buf) k)
        (nodeAt ((List.range k).foldl (vdeStep M g id) buf) k)).length = NODE_SIZE :=
      W.encode_len _ _ (W.kdf_len _) (nodeAt_length hb)
    rw [encFold_succ, vdeStep, nodeAt_updateNode_other (by omega) hb hval]
    exact ih (Nat.le_of_succ_le hk) y (by omega)

theorem encFold_stable (M : HasherModel) (g : GraphModel) (id : Bytes) (W : HasherWf M)
    {buf : Bytes} {N : Nat} (hlen : buf.length = N * NODE_SIZE) :
    ∀ m mt, mt ≤ N → m ≤ mt → ∀ y, y < m →
      nodeAt ((List.range mt).foldl (vdeStep M g id) buf) y =
        nodeAt ((List.range m).foldl (vdeStep M g id) buf) y := by
  intro m mt
  induction mt with
  | zero => intro _ hm y hy; omega
  | succ k ih =>
    intro hk hm y hy
    rcases Nat.lt_or_ge m (k + 1) with hlt | hge
    · have hck := encFold_length M g id W hlen k (Nat.le_of_succ_le hk)
      have hb : (k + 1) * NODE_SIZE ≤ ((List.range k).foldl (vdeStep M g id) buf).length := by
        rw [hck]; exact Nat.mul_le_mul_right _ hk
      have hval : (M.encodeF (encKey M g id ((List.range k).foldl (vdeStep M g id) buf) k)
          (nodeAt ((List.range k).foldl (vdeStep M g id) buf) k)).length = NODE_SIZE :=
        W.encode_len _ _ (W.kdf_len _) (nodeAt_length hb)
      rw [encFold_succ, vdeStep, nodeAt_updateNode_other (by omega) hb hval]
      exact ih (Nat.le_of_succ_le hk) (by omega) y hy
    · have hmeq : m = k + 1 := by omega
      rw [hmeq]

theorem vdeEncode_length (M : HasherModel) (g : GraphModel) (id : Bytes) (W : HasherWf M)
    {buf : Bytes} (hlen : buf.length = g.size * NODE_SIZE) :
    (vdeEncode M g id buf).length = g.size * NODE_SIZE :=
  encFold_length M g id W hlen g.size (le_refl _)

theorem vdeEncode_node (M : HasherModel) (g : GraphModel) (id : Bytes) (W : HasherWf M)
    {buf : Bytes} (hlen : buf.length = g.size * NODE_SIZE)
    (hdag : ∀ x, x < g.size → ∀ p ∈ g.parents x, p < x) :
    ∀ y, y < g.size →
      nodeAt (vdeEncode M g id buf) y =
        M.encodeF (encKey M g id (vdeEncode M g id buf) y) (nodeAt buf y) := by
  intro y hy
  have hstep : nodeAt (vdeEncode M g id buf) y =
      nodeAt ((List.range (y + 1)).foldl (vdeStep M g id) buf) y := by
    rw [vdeEncode]
    exact encFold_stable M g id W hlen (y + 1) g.size (le_refl _) hy y (Nat.lt_succ_self y)
  have hck := encFold_length M g id W hlen y (by omega)
  have hb : (y + 1) * NODE_SIZE ≤ ((List.range y).foldl (vdeStep M g id) buf).length := by
    rw [hck]; exact Nat.mul_le_mul_right _ hy
  have hval : (M.encodeF (encKey M g id ((List.range y).foldl (vdeStep M g id) buf) y)
      (nodeAt ((List.range y).foldl (vdeStep M g id) buf) y)).length = NODE_SIZE :=
    W.encode_len _ _ (W.kdf_len _) (nodeAt_length hb)
  rw [hstep, encFold_succ, vdeStep, nodeAt_updateNode_self hb hval]
  congr 1
  · rw [encKey, encKey]
    congr 3
    apply List.map_congr_left
    intro p hp
    have hplt : p < y := hdag y hy p hp
    rw [vdeEncode]
    exact (encFold_stable M g id W hlen y g.size (le_refl _) (by omega) p hplt).symm
  · exact encFold_above M g id W hlen y (by omega) y (le_refl y)

theorem vdeEncode_all_lt (M : HasherModel) (g : GraphModel) (id : Bytes) (W : HasherWf M)
    {buf : Bytes} {N : Nat} (_hlen : buf.length = N * NODE_SIZE)
    (hlt : buf.all (· < 256) = true) :
    ∀ m, m ≤ N → ((List.range m).foldl (vdeStep M g id) buf).all (· < 256) = true := by
  intro m
  induction m with
  | zero => intro _; simpa using hlt
  | succ k ih =>
    intro hk
    have hck := ih (Nat.le_of_succ_le hk)
    rw [encFold_succ, vdeStep, updateNode]
    simp only [List.all_append, Bool.and_eq_true]
    refine ⟨⟨?_, ?_⟩, ?_⟩
    · simp only [List.all_eq_true] at hck ⊢
      intro x hx
      exact hck x (List.mem_of_mem_take hx)
    · exact W.encode_lt _ _ (nodeAt_all_lt hck)
    · simp only [List.all_eq_true] at hck ⊢
      intro x hx
      exact hck x (List.mem_of_mem_drop hx)

theorem vdeDecode_congr (M : HasherModel) (g gp : GraphModel) (id d : Bytes)
    (hs : g.size = gp.size) (hp : ∀ x, g.parents x = gp.parents x) :
    vdeDecode M g id d = vdeDecode M gp id d := by
  rw [vdeDecode, vdeDecode, hs]
  congr 1
  apply List.map_congr_left
  intro x _
  rw [encKey, encKey, hp x]

theorem vdeDecode_encode (M : HasherModel) (g : GraphModel) (id : Bytes) (W : HasherWf M)
    {buf : Bytes} (hlen : buf.length = g.size * NODE_SIZE)
    (hlt : buf.all (· < 256) = true)
    (hdag : ∀ x, x < g.size → ∀ p ∈ g.parents x, p < x) :
    vdeDecode M g id (vdeEncode M g id buf) = buf := by
  rw [vdeDecode]
  have hmap : (List.range g.size).map (fun x =>
      M.decodeF (encKey M g id (vdeEncode M g id buf) x) (nodeAt (vdeEncode M g id buf) x)) =
      (List.range g.size).map (nodeAt buf) := by
    apply List.map_congr_left
    intro x hx
    rw [List.mem_range] at hx
    rw [vdeEncode_node M g id W hlen hdag x hx]
    have hb : (x + 1) * NODE_SIZE ≤ buf.length := by
      rw [hlen]; exact Nat.mul_le_mul_right _ hx
    exact W.decode_encode _ _ (W.kdf_len _) (nodeAt_length hb) (nodeAt_all_lt hlt)
  rw [hmap, flatten_nodeAt hlen]

/-! Graph-transform lemmas: the zigzag sequence is two-periodic in
behavior. -/

theorem graphAt_size (g : GraphModel) (n : Nat) : (graphAt g n).size = g.size := by
  induction n with
  | zero => rfl
  | succ k ih => rw [graphAt, GraphModel.zigzag]; exact ih

theorem graphAt_invIndex (g : GraphModel) (n : Nat) :
    (graphAt g n).invIndex = g.invIndex := by
  induction n with
  | zero => rfl
  | succ k ih => rw [graphAt, GraphModel.zigzag]; exact ih

theorem graphAt_baseF (g : GraphModel) (n : Nat) : (graphAt g n).baseF = g.baseF := by
  induction n with
  | zero => rfl
  | succ k ih => rw [graphAt, GraphModel.zigzag]; exact ih

theorem graphAt_layer (g : GraphModel) (n : Nat) : (graphAt g n).layer = g.layer + n := by
  induction n with
  | zero => rfl
  | succ k ih => rw [graphAt, GraphModel.zigzag]; simp [ih]; omega

theorem graphAt_expF_two (g : GraphModel) (hinv : ∀ x, g.invIndex (g.invIndex x) = x)
    (n : Nat) (x : Nat) : (graphAt g (n + 2)).expF x = (graphAt g n).expF x := by
  have hi : (graphAt g n).invIndex = g.invIndex := graphAt_invIndex g n
  show ((graphAt g n).zigzag.zigzag).expF x = (graphAt g n).expF x
  simp only [GraphModel.zigzag, hi, hinv x, List.map_map]
  have : (g.invIndex ∘ g.invIndex) = id := by funext p; simp [hinv p]
  rw [this, List.map_id]

theorem graphAt_expF_mod (g : GraphModel) (hinv : ∀ x, g.invIndex (g.invIndex x) = x) :
    ∀ n x, (graphAt g n).expF x = (graphAt g (n % 2)).expF x := by
  intro n
  induction n using Nat.strong_induction_on with
  | _ n ih =>
    intro x
    match n, ih with
    | 0, _ => rfl
    | 1, _ => rfl
    | m + 2, ih =>
      rw [graphAt_expF_two g hinv m x, ih m (by omega) x]
      have h22 : (m + 2) % 2 = m % 2 := by omega
      rw [h22]

theorem graphAt_parents_mod (g : GraphModel) (W : GraphWf g) (n x : Nat) :
    (graphAt g n).parents x = (graphAt g (n % 2)).parents x := by
  rw [GraphModel.parents, GraphModel.parents, GraphModel.baseParents,
    GraphModel.baseParents, graphAt_baseF, graphAt_baseF, graphAt_layer, graphAt_layer,
    W.layer0, graphAt_expF_mod g W.inv_inv n x]
  rw [W.base_mod (0 + n) x]
  congr 2
  omega

theorem graphAt_dag (g : GraphModel) (W : GraphWf g) (n : Nat) :
    ∀ x, x < g.size → ∀ p ∈ (graphAt g n).parents x, p < x := by
  intro x hx p hp
  rw [graphAt_parents_mod g W n x] at hp
  rcases Nat.mod_two_eq_zero_or_one n with h2 | h2
  · rw [h2] at hp
    exact W.dag0 x hx p hp
  · rw [h2] at hp
    exact W.dag1 x hx p hp

/-! Layered encoding lemmas. -/

theorem layerBuf_succ (M : HasherModel) (id : Bytes) (g : GraphModel) (data : Bytes)
    (j : Nat) : layerBuf M id g data (j + 1) =
      vdeEncode M (graphAt g j) id (layerBuf M id g data j) := rfl

theorem layerBuf_length (M : HasherModel) (id : Bytes) (g : GraphModel) (data : Bytes)
    (W : HasherWf M) (hlen : data.length = g.size * NODE_SIZE) :
    ∀ j, (layerBuf M id g data j).length = g.size * NODE_SIZE := by
  intro j
  induction j with
  | zero => exact hlen
  | succ k ih =>
    rw [layerBuf_succ]
    have := @vdeEncode_length M (graphAt g k) id W (layerBuf M id g data k)
      (by rw [graphAt_size]; exact ih)
    rwa [graphAt_size] at this

theorem layerBuf_all_lt (M : HasherModel) (id : Bytes) (g : GraphModel) (data : Bytes)
    (W : HasherWf M) (hlen : data.length = g.size * NODE_SIZE)
    (hlt : data.all (· < 256) = true) :
    ∀ j, (layerBuf M id g data j).all (· < 256) = true := by
  intro j
  induction j with
  | zero => exact hlt
  | succ k ih =>
    rw [layerBuf_succ, vdeEncode]
    exact @vdeEncode_all_lt M (graphAt g k) id W (layerBuf M id g data k) g.size
      (layerBuf_length M id g data W hlen k) ih
      (graphAt g k).size (by rw [graphAt_size])

/-- One-step unrolling of `encodeLoop` on a positive pass count. -/
theorem encodeLoop_succ_eq (M : HasherModel) (id : Bytes) (N rem : Nat)
    (g : GraphModel) (buf : Bytes) :
    encodeLoop M id N (rem + 1) g buf =
      (let buf' := vdeEncode M g id buf
       if buf'.length == NODE_SIZE * N then
         if rem == 0 then .ok ([], buf')
         else do
           let (rest, last) ← encodeLoop M id N rem g.zigzag buf'
           .ok (buf' :: rest, last)
       else .error .panicked) := rfl

/-- Forward characterization of the replicator's encoding loop: starting
at layer `t` with `rem ≥ 1` passes left, it collects the buffers of layers
`t+1 … t+rem-1` and returns the buffer of layer `t+rem`. -/
theorem encodeLoop_eq (M : HasherModel) (id : Bytes) (g0 : GraphModel) (data : Bytes)
    (W : HasherWf M) (hlen : data.length = g0.size * NODE_SIZE) :
    ∀ rem t, 1 ≤ rem →
      encodeLoop M id g0.size rem (graphAt g0 t) (layerBuf M id g0 data t) =
        .ok ((List.range' (t + 1) (rem - 1)).map (layerBuf M id g0 data),
             layerBuf M id g0 data (t + rem)) := by
  intro rem
  induction rem with
  | zero => intro t h; omega
  | succ k ih =>
    intro t _
    have hl1 : (layerBuf M id g0 data (t + 1)).length = NODE_SIZE * g0.size := by
      rw [layerBuf_length M id g0 data W hlen (t + 1), Nat.mul_comm]
    cases k with
    | zero =>
      rw [encodeLoop_succ_eq]
      simp only [← layerBuf_succ, hl1, beq_self_eq_true, if_true]
      rfl
    | succ k2 =>
      have hih := ih (t + 1) (by omega)
      rw [encodeLoop_succ_eq]
      simp only [← layerBuf_succ, hl1, beq_self_eq_true, if_true]
      rw [if_neg (by simp)]
      rw [show (graphAt g0 t).zigzag = graphAt g0 (t + 1) from rfl, hih]
      simp only [Bind.bind, Except.bind, Except.ok.injEq, Prod.mk.injEq]
      constructor
      · rw [show k2 + 1 + 1 - 1 = k2 + 1 from rfl, List.range'_succ, List.map_cons]
        rfl
      · congr 1
        omega

/-- Unrolling of the extraction loop: decoding `k` layers from the buffer
of layer `k`, with the graph `L - k` transforms ahead, recovers the raw
data, provided the total layer count `L` is even. -/
theorem extractLoop_eq (M : HasherModel) (id : Bytes) (g0 : GraphModel) (data : Bytes)
    (W : HasherWf M) (G : GraphWf g0) (L : Nat) (heL : L % 2 = 0)
    (hlen : data.length = g0.size * NODE_SIZE) (hlt : data.all (· < 256) = true) :
    ∀ k, k ≤ L →
      extractLoop M id k (graphAt g0 (L - k)) (layerBuf M id g0 data k) = data := by
  intro k
  induction k with
  | zero => intro _; rfl
  | succ j ih =>
    intro hk
    rw [extractLoop]
    have hzz : (graphAt g0 (L - (j + 1))).zigzag = graphAt g0 (L - j) := by
      rw [show (graphAt g0 (L - (j + 1))).zigzag = graphAt g0 (L - (j + 1) + 1) from rfl]
      congr 1
      omega
    rw [hzz]
    have hdec : vdeDecode M (graphAt g0 (L - j)) id (layerBuf M id g0 data (j + 1)) =
        layerBuf M id g0 data j := by
      rw [vdeDecode_congr M (graphAt g0 (L - j)) (graphAt g0 j) id _
        (by rw [graphAt_size, graphAt_size])
        (fun x => by
          rw [graphAt_parents_mod g0 G (L - j) x, graphAt_parents_mod g0 G j x]
          congr 2
          omega)]
      rw [layerBuf_succ]
      exact vdeDecode_encode M (graphAt g0 j) id W
        (by rw [graphAt_size]; exact layerBuf_length M id g0 data W hlen j)
        (layerBuf_all_lt M id g0 data W hlen hlt j)
        (by rw [graphAt_size]; exact graphAt_dag g0 G j)
    rw [hdec, overwritePrefix]
    have hlj : (layerBuf M id g0 data j).length = (layerBuf M id g0 data (j + 1)).length := by
      rw [layerBuf_length M id g0 data W hlen, layerBuf_length M id g0 data W hlen]
    rw [hlj, List.drop_length, List.append_nil]
    exact ih (by omega)

/-- Inversion of a successful `build_tree`: the buffer is node-aligned,
the leaf count is a power of two, and the leaves are the decoded (hence
valid) node slices. -/
theorem buildTree_ok_inv (M : HasherModel) (d : Bytes) (leaves : List Bytes)
    (h : buildTree M d = .ok leaves) :
    d.length % NODE_SIZE = 0 ∧
    leaves = (List.range (d.length / NODE_SIZE)).map (nodeAt d) ∧
    isPow2 (d.length / NODE_SIZE) = true ∧
    (∀ i, i < d.length / NODE_SIZE → M.validDomain (nodeAt d i) = true) := by
  rw [buildTree] at h
  split at h
  case isFalse => exact absurd h (by simp)
  rename_i hmod
  obtain ⟨lv, hlv, h⟩ := rr_bind_ok h
  split at h
  case isFalse => exact absurd h (by simp)
  rename_i hpow
  have hinj : lv = leaves := by simpa using h
  subst hinj
  have hchar : ∀ i ∈ List.range (d.length / NODE_SIZE), ∀ b,
      (match get_node M d i with
        | .ok v => (.ok v : RR Bytes)
        | .error _ => .error .panicked) = .ok b →
      b = nodeAt d i ∧ M.validDomain (nodeAt d i) = true := by
    intro i _ b hb
    cases hg : get_node M d i with
    | ok v =>
      rw [hg] at hb
      have hbv : b = v := by simpa using hb.symm
      rw [get_node] at hg
      cases hd : data_at_node d i with
      | ok s =>
        rw [hd] at hg
        rw [data_at_node] at hd
        split at hd
        · have hs : s = nodeAt d i := by simpa using hd.symm
          have hg' : tryFromBytes M s = .ok v := hg
          rw [tryFromBytes] at hg'
          split at hg'
          · rename_i hval
            have hv : v = s := by simpa using hg'.symm
            rw [hbv, hv, hs]
            exact ⟨rfl, hs ▸ hval⟩
          · exact absurd hg' (by simp)
        · exact absurd hd (by simp)
      | error e =>
        rw [hd] at hg
        exact absurd hg (by simp)
    | error e => rw [hg] at hb; exact absurd hb (by simp)
  refine ⟨by simpa using hmod, ?_, hpow, ?_⟩
  · exact mapM_ok_eq_map (nodeAt d) hlv (fun i hi b hb => (hchar i hi b hb).1)
  · intro i hi
    obtain ⟨b, hb⟩ := mapM_ok_elem hlv i (List.mem_range.mpr hi)
    exact (hchar i (List.mem_range.mpr hi) b hb).2

/-- A power of two is positive. -/
theorem isPow2_pos {n : Nat} (h : isPow2 n = true) : 0 < n := by
  cases n with
  | zero => exact absurd h (by simp [isPow2, isPow2Aux])
  | succ k => exact Nat.succ_pos k

/-- A successful row read stays within the encodings vector. -/
theorem column_row_ok_bound (M : HasherModel) (encodings : List Bytes) (y j : Nat)
    (b : Bytes)
    (h : (do tryFromBytes M (← get_node_at_layer encodings y j)) = (.ok b : RR Bytes)) :
    j < encodings.length := by
  rw [show (do tryFromBytes M (← get_node_at_layer encodings y j)) =
      (get_node_at_layer encodings y j >>= tryFromBytes M) from rfl] at h
  obtain ⟨a, ha, _⟩ := rr_bind_ok h
  rw [get_node_at_layer] at ha
  cases hq : encodings.get? j with
  | none => rw [hq] at ha; exact absurd ha (by simp)
  | some buf =>
    obtain ⟨hlt, _⟩ := List.get?_eq_some.mp hq
    exact hlt

/-- A successful odd-column read forces an even layer count. -/
theorem get_odd_column_ok_even (M : HasherModel) (encodings : List Bytes)
    (layers x : Nat) (col : ColumnM) (hpos : 0 < layers)
    (hlen : encodings.length = layers - 1)
    (h : get_odd_column M encodings layers x = .ok col) : layers % 2 = 0 := by
  by_contra hodd
  have hodd1 : layers % 2 = 1 := by omega
  rw [get_odd_column] at h
  rw [show ∀ e : RR (List Bytes), (do
        let rows ← e
        (.ok { index := x, rows := rows, kind := .odd } : RR ColumnM)) =
        (e >>= fun rows => .ok { index := x, rows := rows, kind := .odd })
      from fun _ => rfl] at h
  obtain ⟨rows, hrows, _⟩ := rr_bind_ok h
  have hmem : layers - 1 ∈ stepBy2 0 layers := by
    simp only [stepBy2, List.mem_map, List.mem_range]
    exact ⟨(layers - 1) / 2, by omega, by omega⟩
  obtain ⟨b, hb⟩ := mapM_ok_elem hrows (layers - 1) hmem
  have := column_row_ok_bound M encodings x (layers - 1) b hb
  omega

/-- C7 witness: the amended statement on the reference test input
(`encodings = [[1;32],[2;32],[3;32],[4;32],[5;32]]`, `L = 6`, `x = 0`),
with the rows evaluating to the domain elements of `[1;32]`, `[3;32]`,
`[5;32]`. -/
theorem c7_odd_column_witness :
    toyEncodings5.length = 6 - 1 ∧
    get_odd_column toyM toyEncodings5 6 0 =
      .ok { index := 0,
            rows := [List.replicate 32 1, List.replicate 32 3, List.replicate 32 5],
            kind := .odd } := by
  refine ⟨rfl, ?_⟩
  have h := c7_odd_column toyM toyEncodings5 6 0 rfl (by decide) rfl (by decide) (by decide)
  rw [h]
  rfl

/-! Merkle-path lemmas: on a power-of-two leaf count, a generated
authentication path encodes its index and recomputes the root. -/

theorem isPow2Aux_pow : ∀ fuel n, isPow2Aux fuel n = true → ∃ k, n = 2 ^ k := by
  intro fuel
  induction fuel with
  | zero =>
    intro n h
    match n with
    | 0 => rw [show isPow2Aux 0 0 = false from rfl] at h; simp at h
    | 1 => exact ⟨0, rfl⟩
    | m + 2 => rw [show isPow2Aux 0 (m + 2) = false from rfl] at h; simp at h
  | succ f ih =>
    intro n h
    match n with
    | 0 => rw [show isPow2Aux (f + 1) 0 = false from rfl] at h; simp at h
    | 1 => exact ⟨0, rfl⟩
    | m + 2 =>
      rw [show isPow2Aux (f + 1) (m + 2) =
        ((m + 2) % 2 == 0 && isPow2Aux f ((m + 2) / 2)) from rfl] at h
      rw [Bool.and_eq_true] at h
      obtain ⟨k, hk⟩ := ih ((m + 2) / 2) h.2
      refine ⟨k + 1, ?_⟩
      have hm : (m + 2) % 2 = 0 := by simpa using h.1
      have hsplit : m + 2 = 2 * ((m + 2) / 2) := by omega
      rw [hsplit, hk, pow_succ]
      exact Nat.mul_comm 2 (2 ^ k)

theorem isPow2_pow {n : Nat} (h : isPow2 n = true) : ∃ k, n = 2 ^ k :=
  isPow2Aux_pow n n h

theorem pairUp_length (h2 : Bytes → Bytes → Bytes) :
    ∀ l : List Bytes, (pairUp h2 l).length = (l.length + 1) / 2
  | [] => by simp [pairUp]
  | [a] => by simp [pairUp]
  | a :: b :: rest => by
    rw [show pairUp h2 (a :: b :: rest) = h2 a b :: pairUp h2 rest from rfl]
    simp only [List.length_cons, pairUp_length h2 rest]
    omega

theorem pairUp_getD (h2 : Bytes → Bytes → Bytes) :
    ∀ (l : List Bytes) (j : Nat), 2 * j + 1 < l.length →
      (pairUp h2 l).getD j [] = h2 (l.getD (2 * j) []) (l.getD (2 * j + 1) [])
  | [], j, h => by simp at h
  | [a], j, h => by simp at h
  | a :: b :: rest, 0, h => by
    rw [show pairUp h2 (a :: b :: rest) = h2 a b :: pairUp h2 rest from rfl]
    rfl
  | a :: b :: rest, j + 1, h => by
    rw [show pairUp h2 (a :: b :: rest) = h2 a b :: pairUp h2 rest from rfl]
    have hh : 2 * j + 1 < rest.length := by
      simp only [List.length_cons] at h
      omega
    show (pairUp h2 rest).getD j [] = _
    rw [pairUp_getD h2 rest j hh]
    rfl

theorem pathIndex_cons (p : Bool × Bytes) (rest : List (Bool × Bytes)) :
    pathIndex (p :: rest) = pathIndex rest * 2 + (if p.1 then 1 else 0) := rfl

theorem pathRoot_cons (h2 : Bytes → Bytes → Bytes) (leaf : Bytes) (p : Bool × Bytes)
    (rest : List (Bool × Bytes)) :
    pathRoot h2 leaf (p :: rest) =
      pathRoot h2 (if p.1 then h2 p.2 leaf else h2 leaf p.2) rest := rfl

theorem merkle_path_ok (h2 : Bytes → Bytes → Bytes) :
    ∀ k fuel (l : List Bytes) (idx : Nat), l.length = 2 ^ k → idx < 2 ^ k → k < fuel →
      pathIndex (genPathF h2 fuel l idx) = idx ∧
      pathRoot h2 (l.getD idx []) (genPathF h2 fuel l idx) = merkleRootF h2 fuel l := by
  intro k
  induction k with
  | zero =>
    intro fuel l idx hl hidx hf
    match fuel with
    | f + 1 =>
      have hidx0 : idx = 0 := by simpa using hidx
      subst hidx0
      rw [genPathF, if_pos (by rw [hl]; omega), merkleRootF, if_pos (by rw [hl]; omega)]
      refine ⟨rfl, ?_⟩
      cases l with
      | nil => simp at hl
      | cons a t => rfl
  | succ k ih =>
    intro fuel l idx hl hidx hf
    match fuel with
    | f + 1 =>
      have hk : k < f := by omega
      have hgt : 2 ≤ l.length := by
        rw [hl, pow_succ]
        have : (1 : Nat) ≤ 2 ^ k := Nat.one_le_two_pow
        omega
      have hlen2 : ¬ (l.length ≤ 1) := by omega
      rw [genPathF, if_neg hlen2, merkleRootF, if_neg hlen2]
      have hplen : (pairUp h2 l).length = 2 ^ k := by
        rw [pairUp_length, hl, pow_succ]
        omega
      have hidx2 : idx / 2 < 2 ^ k := by
        rw [pow_succ] at hidx
        omega
      obtain ⟨hpi, hpr⟩ := ih f (pairUp h2 l) (idx / 2) hplen hidx2 hk
      constructor
      · rw [pathIndex_cons, hpi]
        rcases Nat.mod_two_eq_zero_or_one idx with hpar | hpar <;>
          simp [hpar] <;> omega
      · rw [pathRoot_cons]
        rcases Nat.mod_two_eq_zero_or_one idx with hpar | hpar
        · have hidx1 : idx + 1 < l.length := by
            rw [hl, pow_succ]
            omega
          have hup : h2 (l.getD idx []) ((l.get? (idx + 1)).getD []) =
              (pairUp h2 l).getD (idx / 2) [] := by
            rw [pairUp_getD h2 l (idx / 2) (by omega)]
            rw [show 2 * (idx / 2) = idx by omega]
            rw [get?_eq_some_getD l (idx + 1) [] hidx1]
            rfl
          have hbit : decide (idx % 2 = 1) = false := by rw [hpar]; rfl
          have hs2 : (idx % 2 == 0) = true := by rw [hpar]; rfl
          simp only [hbit, hs2, Bool.false_eq_true, if_false, if_true]
          rw [hup]
          exact hpr
        · have hidxpos : 0 < idx := by omega
          have hidx1 : idx - 1 < l.length := by
            rw [hl]; omega
          have hup : h2 ((l.get? (idx - 1)).getD []) (l.getD idx []) =
              (pairUp h2 l).getD (idx / 2) [] := by
            rw [pairUp_getD h2 l (idx / 2) (by rw [hl]; omega)]
            rw [show 2 * (idx / 2) + 1 = idx by omega]
            rw [show 2 * (idx / 2) = idx - 1 by omega]
            rw [get?_eq_some_getD l (idx - 1) [] hidx1]
            rfl
          have hbit : decide (idx % 2 = 1) = true := by rw [hpar]; rfl
          have hs2 : (idx % 2 == 0) = false := by rw [hpar]; rfl
          simp only [hbit, hs2, Bool.false_eq_true, if_false, if_true]
          rw [hup]
          exact hpr

/-- Characterization of a generated inclusion proof on a power-of-two
tree: it opens the indexed leaf, asserts the tree root, encodes the index
in its path, and validates. -/
theorem treeGenProof_ok (M : HasherModel) (leaves : List Bytes) (idx k : Nat)
    (hl : leaves.length = 2 ^ k) (hidx : idx < leaves.length) :
    ∃ q, treeGenProof M leaves idx = .ok q ∧ q.leaf = leaves.getD idx [] ∧
      q.root = merkleRoot M.hash2F leaves ∧ q.provesChallenge idx = true ∧
      q.validate M = true := by
  have hfuel : k < leaves.length := by
    rw [hl]
    exact Nat.lt_two_pow k
  obtain ⟨hpi, hpr⟩ := merkle_path_ok M.hash2F k leaves.length leaves idx hl (hl ▸ hidx) hfuel
  rw [treeGenProof, if_pos hidx]
  refine ⟨_, rfl, ?_, rfl, ?_, ?_⟩
  · rw [get?_eq_some_getD leaves idx [] hidx]
    rfl
  · rw [MerkleProofM.provesChallenge]
    simpa using hpi
  · rw [MerkleProofM.validate]
    rw [get?_eq_some_getD leaves idx [] hidx]
    simp only [Option.getD_some, merkleRoot, hpr, beq_self_eq_true]

/-! List access helpers for the prover/verifier correspondence. -/

theorem range_map_getD {α : Type} (n i : Nat) (f : Nat → α) (d : α) (h : i < n) :
    ((List.range n).map f).getD i d = f i := by
  simp [List.getD_eq_getElem?_getD, List.getElem?_map, List.getElem?_range h]

theorem getD_of_get? {α : Type} {l : List α} {i : Nat} {a : α} (h : l.get? i = some a)
    (d : α) : l.getD i d = a := by
  rw [List.getD_eq_getElem?_getD, ← List.get?_eq_getElem?, h]
  rfl

theorem zip_get?_some {α β : Type} :
    ∀ (l : List α) (l' : List β) (i : Nat) (a : α) (b : β),
      l.get? i = some a → l'.get? i = some b → (l.zip l').get? i = some (a, b)
  | [], _, i, _, _, h, _ => by simp at h
  | _ :: _, [], i, _, _, _, h => by simp at h
  | x :: xs, y :: ys, 0, a, b, h1, h2 => by
    simp only [List.get?] at h1 h2
    cases h1
    cases h2
    rfl
  | x :: xs, y :: ys, i + 1, a, b, h1, h2 => by
    simp only [List.get?] at h1 h2
    rw [List.zip_cons_cons]
    show (xs.zip ys).get? i = some (a, b)
    exact zip_get?_some xs ys i a b h1 h2

theorem flatten_uniform_length :
    ∀ bl : List Bytes, (∀ b ∈ bl, b.length = NODE_SIZE) →
      bl.flatten.length = bl.length * NODE_SIZE
  | [], _ => rfl
  | b :: t, h => by
    rw [List.flatten_cons, List.length_append, h b (List.mem_cons_self b t),
      flatten_uniform_length t (fun x hx => h x (List.mem_cons_of_mem b hx))]
    simp [Nat.succ_mul]
    omega

theorem nodeAt_flatten_uniform :
    ∀ (bl : List Bytes) (i : Nat), (∀ b ∈ bl, b.length = NODE_SIZE) → i < bl.length →
      nodeAt bl.flatten i = bl.getD i []
  | [], i, _, hi => by simp at hi
  | b :: t, 0, h, _ => by
    rw [List.flatten_cons, nodeAt_append_left]
    · rw [nodeAt, Nat.zero_mul, List.drop_zero,
        List.take_of_length_le (h b (List.mem_cons_self b t)).le]
      rfl
    · rw [h b (List.mem_cons_self b t)]
      omega
  | b :: t, i + 1, h, hi => by
    rw [List.flatten_cons,
      @nodeAt_append_right b t.flatten (i + 1) 1
        (by simpa using h b (List.mem_cons_self b t)) (by omega)]
    show nodeAt t.flatten (i + 1 - 1) = _
    rw [show i + 1 - 1 = i from rfl,
      nodeAt_flatten_uniform t i (fun x hx => h x (List.mem_cons_of_mem b hx))
        (by simpa using hi)]
    rfl

/-! Consequences of the replication facts: shape of the three trees and
verification of the column proofs the prover assembles. -/

theorem rf_cs_nodeAt {M : HasherModel} {g0 : GraphModel} {id data : Bytes} {L : Nat}
    {taux : TemporaryAux} (W : HasherWf M) (F : ReplicaFacts M g0 id data L taux)
    (i : Nat) (hi : i < g0.size) :
    nodeAt (((taux.os.zip taux.es).map (fun p => M.hash2F p.1 p.2)).flatten) i =
      M.hash2F (taux.os.getD i []) (taux.es.getD i []) := by
  have hzlen : (taux.os.zip taux.es).length = g0.size := by
    rw [List.length_zip, F.hosl, F.hesl, Nat.min_self]
  have huni : ∀ b ∈ (taux.os.zip taux.es).map (fun p => M.hash2F p.1 p.2),
      b.length = NODE_SIZE := by
    intro b hb
    obtain ⟨p, -, rfl⟩ := List.mem_map.mp hb
    exact W.hash2_len p.1 p.2
  rw [nodeAt_flatten_uniform _ i huni (by rw [List.length_map, hzlen]; exact hi)]
  have hzip : (taux.os.zip taux.es).get? i = some (taux.os.getD i [], taux.es.getD i []) :=
    zip_get?_some _ _ i _ _ (get?_eq_some_getD _ i [] (by rw [F.hosl]; exact hi))
      (get?_eq_some_getD _ i [] (by rw [F.hesl]; exact hi))
  rw [List.getD_eq_getElem?_getD, List.getElem?_map, ← List.get?_eq_getElem?, hzip]
  rfl

theorem rf_tree_c_getD {M : HasherModel} {g0 : GraphModel} {id data : Bytes} {L : Nat}
    {taux : TemporaryAux} (W : HasherWf M) (F : ReplicaFacts M g0 id data L taux)
    (i : Nat) (hi : i < g0.size) :
    taux.tree_c.getD i [] = M.hash2F (taux.os.getD i []) (taux.es.getD i []) := by
  rw [F.htc, range_map_getD _ _ _ _ hi, rf_cs_nodeAt W F i hi]

theorem rf_os_getD {M : HasherModel} {g0 : GraphModel} {id data : Bytes} {L : Nat}
    {taux : TemporaryAux} (F : ReplicaFacts M g0 id data L taux) (i : Nat)
    (hi : i < g0.size) :
    taux.os.getD i [] = M.hashF (((List.range (L / 2)).map
      (fun t => nodeAt (taux.encodings.getD (2 * t) []) i)).flatten) :=
  getD_of_get? (F.hos i hi) []

theorem rf_es_getD {M : HasherModel} {g0 : GraphModel} {id data : Bytes} {L : Nat}
    {taux : TemporaryAux} (F : ReplicaFacts M g0 id data L taux) (i : Nat)
    (hi : i < g0.size) :
    taux.es.getD i [] = M.hashF (((List.range ((L - 1) / 2)).map
      (fun t => nodeAt (taux.encodings.getD (2 * t + 1) []) (g0.invIndex i))).flatten) :=
  getD_of_get? (F.hes i hi) []

theorem rf_tree_c_proof {M : HasherModel} {g0 : GraphModel} {id data : Bytes} {L : Nat}
    {taux : TemporaryAux} (W : HasherWf M) (F : ReplicaFacts M g0 id data L taux)
    (y : Nat) (hy : y < g0.size) :
    ∃ q, treeGenProof M taux.tree_c y = .ok q ∧
      q.leaf = M.hash2F (taux.os.getD y []) (taux.es.getD y []) ∧
      q.root = merkleRoot M.hash2F taux.tree_c ∧
      q.provesChallenge y = true ∧ q.validate M = true := by
  obtain ⟨k, hk⟩ := F.hpow
  have hclen : taux.tree_c.length = 2 ^ k := by
    rw [F.htc, List.length_map, List.length_range, hk]
  obtain ⟨q, hq, hleaf, hroot, hpc, hval⟩ :=
    treeGenProof_ok M taux.tree_c y k hclen (by rw [hclen, ← hk]; exact hy)
  exact ⟨q, hq, by rw [hleaf, rf_tree_c_getD W F y hy], hroot, hpc, hval⟩

theorem rf_tree_d_proof {M : HasherModel} {g0 : GraphModel} {id data : Bytes} {L : Nat}
    {taux : TemporaryAux} (F : ReplicaFacts M g0 id data L taux)
    (y : Nat) (hy : y < g0.size) :
    ∃ q, treeGenProof M taux.tree_d y = .ok q ∧
      q.leaf = nodeAt data y ∧
      q.root = merkleRoot M.hash2F taux.tree_d ∧
      q.provesChallenge y = true ∧ q.validate M = true := by
  obtain ⟨k, hk⟩ := F.hpow
  have hdlen : taux.tree_d.length = 2 ^ k := by
    rw [F.htd, List.length_map, List.length_range, hk]
  obtain ⟨q, hq, hleaf, hroot, hpc, hval⟩ :=
    treeGenProof_ok M taux.tree_d y k hdlen (by rw [hdlen, ← hk]; exact hy)
  refine ⟨q, hq, ?_, hroot, hpc, hval⟩
  rw [hleaf, F.htd, range_map_getD _ _ _ _ hy]

theorem rf_tree_r_proof {M : HasherModel} {g0 : GraphModel} {id data : Bytes} {L : Nat}
    {taux : TemporaryAux} (F : ReplicaFacts M g0 id data L taux)
    (y : Nat) (hy : y < g0.size) :
    ∃ q, treeGenProof M taux.tree_r_last y = .ok q ∧
      q.provesChallenge y = true ∧ q.validate M = true := by
  obtain ⟨k, hk⟩ := F.hpow
  have hrlen : taux.tree_r_last.length = 2 ^ k := by
    rw [F.htr, List.length_map, List.length_range, hk]
  obtain ⟨q, hq, -, -, hpc, hval⟩ :=
    treeGenProof_ok M taux.tree_r_last y k hrlen (by rw [hrlen, ← hk]; exact hy)
  exact ⟨q, hq, hpc, hval⟩

theorem rf_full_col_eq {M : HasherModel} {g0 : GraphModel} {id data : Bytes} {L : Nat}
    {taux : TemporaryAux} (G : GraphWf g0) (F : ReplicaFacts M g0 id data L taux)
    (y : Nat) (hy : y < g0.size) :
    get_full_column M taux.encodings g0 L y =
      .ok { index := y,
            rows := (List.range (L - 1)).map (fun i => nodeAt (taux.encodings.getD i [])
              (if (i + 1) % 2 == 0 then g0.invIndex y else y)),
            kind := .all } := by
  have hbufy : ∀ buf ∈ taux.encodings, (y + 1) * NODE_SIZE ≤ buf.length := fun buf hb => by
    rw [F.hblen buf hb]
    exact Nat.mul_le_mul_right _ hy
  have hbufi : ∀ buf ∈ taux.encodings, (g0.invIndex y + 1) * NODE_SIZE ≤ buf.length :=
    fun buf hb => by
      rw [F.hblen buf hb]
      exact Nat.mul_le_mul_right _ (G.inv_lt y hy)
  exact get_full_column_eq M taux.encodings g0 L y F.helen hbufy hbufi
    (fun buf hb => F.hvalm buf hb y hy)
    (fun buf hb => F.hvalm buf hb _ (G.inv_lt y hy))

theorem rf_full_verifies {M : HasherModel} {g0 : GraphModel} {id data : Bytes} {L : Nat}
    {taux : TemporaryAux} (W : HasherWf M) (G : GraphWf g0)
    (F : ReplicaFacts M g0 id data L taux) (y : Nat) (hy : y < g0.size)
    (q : MerkleProofM) (hq : treeGenProof M taux.tree_c y = .ok q) :
    (ColumnProofM.allFromColumn
      { index := y,
        rows := (List.range (L - 1)).map (fun i => nodeAt (taux.encodings.getD i [])
          (if (i + 1) % 2 == 0 then g0.invIndex y else y)),
        kind := .all } q).verify M = true := by
  obtain ⟨q', hq', hleaf, -, -, hval⟩ := rf_tree_c_proof W F y hy
  rw [hq] at hq'
  have hqq : q = q' := by simpa using hq'
  subst hqq
  have hsplit := full_column_rows_split taux.encodings L y (g0.invIndex y)
    (by have := F.hL2; omega)
  rw [ColumnProofM.verify]
  simp only [ColumnProofM.allFromColumn, columnHash, hsplit.1, hsplit.2, hleaf, hval,
    rf_os_getD F y hy, rf_es_getD F y hy, Bool.true_and, beq_self_eq_true]

theorem rf_odd_col_eq {M : HasherModel} {g0 : GraphModel} {id data : Bytes} {L : Nat}
    {taux : TemporaryAux} (F : ReplicaFacts M g0 id data L taux)
    (y : Nat) (hy : y < g0.size) :
    get_odd_column M taux.encodings L y =
      .ok { index := y,
            rows := (List.range (L / 2)).map
              (fun i => nodeAt (taux.encodings.getD (2 * i) []) y),
            kind := .odd } := by
  have hbufy : ∀ buf ∈ taux.encodings, (y + 1) * NODE_SIZE ≤ buf.length := fun buf hb => by
    rw [F.hblen buf hb]
    exact Nat.mul_le_mul_right _ hy
  exact get_odd_column_eq M taux.encodings L y F.heven (by have := F.hL2; omega)
    F.helen hbufy (fun buf hb => F.hvalm buf hb y hy)

theorem rf_odd_verifies {M : HasherModel} {g0 : GraphModel} {id data : Bytes} {L : Nat}
    {taux : TemporaryAux} (W : HasherWf M) (F : ReplicaFacts M g0 id data L taux)
    (y : Nat) (hy : y < g0.size)
    (q : MerkleProofM) (hq : treeGenProof M taux.tree_c y = .ok q)
    (e : Bytes) (he : taux.es.get? y = some e) :
    (ColumnProofM.oddFromColumn
      { index := y,
        rows := (List.range (L / 2)).map
          (fun i => nodeAt (taux.encodings.getD (2 * i) []) y),
        kind := .odd } q e).verify M = true := by
  obtain ⟨q', hq', hleaf, -, -, hval⟩ := rf_tree_c_proof W F y hy
  rw [hq] at hq'
  have hqq : q = q' := by simpa using hq'
  subst hqq
  have hee : e = taux.es.getD y [] := (getD_of_get? he []).symm
  rw [ColumnProofM.verify]
  simp only [ColumnProofM.oddFromColumn, columnHash, hleaf, hval, hee,
    rf_os_getD F y hy, Bool.true_and, beq_self_eq_true]

theorem rf_even_verifies {M : HasherModel} {g0 : GraphModel} {id data : Bytes} {L : Nat}
    {taux : TemporaryAux} (W : HasherWf M) (G : GraphWf g0)
    (F : ReplicaFacts M g0 id data L taux) (p : Nat) (hp : p < g0.size)
    (q : MerkleProofM) (hq : treeGenProof M taux.tree_c (g0.invIndex p) = .ok q)
    (o : Bytes) (ho : taux.os.get? (g0.invIndex p) = some o) :
    (ColumnProofM.evenFromColumn
      { index := p,
        rows := (List.range ((L - 1) / 2)).map
          (fun i => nodeAt (taux.encodings.getD (2 * i + 1) []) p),
        kind := .even } q o).verify M = true := by
  have hip : g0.invIndex p < g0.size := G.inv_lt p hp
  obtain ⟨q', hq', hleaf, -, -, hval⟩ := rf_tree_c_proof W F (g0.invIndex p) hip
  rw [hq] at hq'
  have hqq : q = q' := by simpa using hq'
  subst hqq
  have hoo : o = taux.os.getD (g0.invIndex p) [] := (getD_of_get? ho []).symm
  have hesd := rf_es_getD F (g0.invIndex p) hip
  rw [G.inv_inv p] at hesd
  rw [ColumnProofM.verify]
  simp only [ColumnProofM.evenFromColumn, columnHash, hleaf, hval, hoo, hesd,
    Bool.true_and, beq_self_eq_true]

/-! Loop lemmas and access helpers for the prover/verifier
correspondence. -/

theorem vecIndex_ok {α : Type} {l : List α} {i : Nat} {a : α} (h : l.get? i = some a) :
    vecIndex l i = .ok a := by
  rw [vecIndex, h]

theorem map_get?_some {α β : Type} {l : List α} {i : Nat} {a : α} (f : α → β)
    (h : l.get? i = some a) : (l.map f).get? i = some (f a) := by
  rw [List.get?_eq_getElem?, List.getElem?_map, ← List.get?_eq_getElem?, h]
  rfl

theorem range_map_get? {α : Type} (n i : Nat) (f : Nat → α) (h : i < n) :
    ((List.range n).map f).get? i = some (f i) := by
  rw [List.get?_eq_getElem?, List.getElem?_map, List.getElem?_range h]
  rfl

theorem range'_get? (s n i : Nat) (h : i < n) : (List.range' s n).get? i = some (s + i) := by
  rw [List.get?_eq_getElem?, List.getElem?_eq_getElem (by simpa using h)]
  simp

theorem zip_get?_inv {α β : Type} :
    ∀ (l : List α) (l' : List β) (i : Nat) (p : α × β),
      (l.zip l').get? i = some p → l.get? i = some p.1 ∧ l'.get? i = some p.2
  | [], _, i, p, h => by simp at h
  | _ :: _, [], i, p, h => by simp at h
  | x :: xs, y :: ys, 0, p, h => by
    rw [List.zip_cons_cons] at h
    have hp : (x, y) = p := by simpa using h
    subst hp
    exact ⟨rfl, rfl⟩
  | x :: xs, y :: ys, i + 1, p, h => by
    rw [List.zip_cons_cons] at h
    exact zip_get?_inv xs ys i p h

theorem mapM_ok_mem_rev {α β : Type} {l : List α} {f : α → RR β} {r : List β}
    (h : l.rrMapM f = .ok r) : ∀ b ∈ r, ∃ a ∈ l, f a = .ok b := by
  induction l generalizing r with
  | nil =>
    simp only [List.rrMapM, Except.ok.injEq] at h
    subst h
    intro b hb
    simp at hb
  | cons a t ih =>
    rw [rrMapM_cons] at h
    obtain ⟨b0, hb0, h2⟩ := rr_bind_ok h
    obtain ⟨rt, hrt, h3⟩ := rr_bind_ok h2
    have hr : b0 :: rt = r := by simpa using h3
    subst hr
    intro b hb
    rcases List.mem_cons.mp hb with hb | hb
    · exact ⟨a, List.mem_cons_self a t, hb ▸ hb0⟩
    · obtain ⟨a', ha', hfa'⟩ := ih hrt b hb
      exact ⟨a', List.mem_cons_of_mem a ha', hfa'⟩

theorem columnNodeAtLayer_eq {c : ColumnM} {l : Nat} {b : Bytes}
    (h : c.rows.get? (l - 1) = some b) : columnNodeAtLayer c l = .ok b := by
  rw [columnNodeAtLayer, h]

theorem encKey_congr (M : HasherModel) (g g' : GraphModel) (id buf : Bytes) (x : Nat)
    (h : g.parents x = g'.parents x) : encKey M g id buf x = encKey M g' id buf x := by
  rw [encKey, encKey, h]

/-- One encoding pass, read back pointwise: the label of layer `m+1` is
the encoding of the layer-`m` label under the key drawn from the layer
`m+1` buffer. -/
theorem layer_encode_eq {M : HasherModel} {g0 : GraphModel} {id data : Bytes}
    (W : HasherWf M) (G : GraphWf g0) (hlen : data.length = g0.size * NODE_SIZE)
    (m z : Nat) (hz : z < g0.size) :
    nodeAt (layerBuf M id g0 data (m + 1)) z =
      M.encodeF (encKey M (graphAt g0 m) id (layerBuf M id g0 data (m + 1)) z)
        (nodeAt (layerBuf M id g0 data m) z) := by
  rw [layerBuf_succ]
  exact vdeEncode_node M (graphAt g0 m) id W
    (by rw [graphAt_size]; exact layerBuf_length M id g0 data W hlen m)
    (by rw [graphAt_size]; exact graphAt_dag g0 G m) z (by rw [graphAt_size]; exact hz)

theorem rf_even_col_eq {M : HasherModel} {g0 : GraphModel} {id data : Bytes} {L : Nat}
    {taux : TemporaryAux} (F : ReplicaFacts M g0 id data L taux)
    (y : Nat) (hy : y < g0.size) :
    get_even_column M taux.encodings L y =
      .ok { index := y,
            rows := (List.range ((L - 1) / 2)).map
              (fun i => nodeAt (taux.encodings.getD (2 * i + 1) []) y),
            kind := .even } := by
  have hbufy : ∀ buf ∈ taux.encodings, (y + 1) * NODE_SIZE ≤ buf.length := fun buf hb => by
    rw [F.hblen buf hb]
    exact Nat.mul_le_mul_right _ hy
  exact get_even_column_eq M taux.encodings L y F.helen hbufy
    (fun buf hb => F.hvalm buf hb y hy)

theorem verifyEncodingLoop_ok (M : HasherModel) (id : Bytes) (rpc : ReplicaColumnProof) :
    ∀ (eps : List EncodingProofM) (j : Nat),
      (∀ i ep, eps.get? i = some ep → ∃ enc dec,
        rpc.c_x.nodeAtLayer (j + i + 2) = .ok enc ∧
        rpc.c_inv_x.nodeAtLayer (j + i + 2 - 1) = .ok dec ∧
        ep.verify M id enc dec = true) →
      verifyEncodingLoop M id rpc j eps = .ok true
  | [], _, _ => rfl
  | ep :: rest, j, h => by
    obtain ⟨enc, dec, henc, hdec, hv⟩ := h 0 ep rfl
    rw [show j + 0 + 2 = j + 2 from rfl] at henc hdec
    rw [verifyEncodingLoop, henc]
    simp only [Bind.bind, Except.bind]
    rw [hdec]
    simp only [hv, if_true]
    exact verifyEncodingLoop_ok M id rpc rest (j + 1) (fun i ep' hep' => by
      have hh := h (i + 1) ep' hep'
      rwa [show j + (i + 1) + 2 = j + 1 + i + 2 by omega] at hh)

theorem verifyChallengeLoop_ok (M : HasherModel) (g0 g1 : GraphModel) (L : Nat)
    (id : Bytes) (tau : Tau) (proof : ProofM) (size : Nat) :
    ∀ (cs : List Nat) (i0 : Nat),
      (∀ i c, cs.get? i = some c →
        verifyChallenge M g0 g1 L id tau proof size (i0 + i) c = .ok true) →
      verifyChallengeLoop M g0 g1 L id tau proof size i0 cs = .ok true
  | [], _, _ => rfl
  | c :: rest, i0, h => by
    have h0 := h 0 c rfl
    rw [show i0 + 0 = i0 from rfl] at h0
    rw [verifyChallengeLoop, h0]
    simp only [Bind.bind, Except.bind, if_true]
    exact verifyChallengeLoop_ok M g0 g1 L id tau proof size rest (i0 + 1)
      (fun i c' hc' => by
        have hh := h (i + 1) c' hc'
        rwa [show i0 + (i + 1) = i0 + 1 + i by omega] at hh)

theorem vecIndex_ok_inv {α : Type} {l : List α} {i : Nat} {a : α}
    (h : vecIndex l i = .ok a) : l.get? i = some a := by
  rw [vecIndex] at h
  cases hq : l.get? i with
  | none => rw [hq] at h; exact absurd h (by simp)
  | some x =>
    rw [hq] at h
    have hx : x = a := by simpa using h
    rw [← hx]

theorem data_at_node_ok {buf : Bytes} {p N : Nat} (hlen : buf.length = N * NODE_SIZE)
    (hp : p < N) : data_at_node buf p = .ok (nodeAt buf p) := by
  rw [data_at_node,
    if_pos (show (p + 1) * NODE_SIZE ≤ buf.length by
      rw [hlen]; exact Nat.mul_le_mul_right _ hp)]

/-- Reading a row of a full-column proof: 1-indexed layer `l` opens the
layer `l-1` buffer at the challenge position, switching to the inverted
position on even layers. -/
theorem full_col_nodeAtLayer (M : HasherModel) (enc : List Bytes) (x invx : Nat)
    (L l : Nat) (hl : 1 ≤ l) (hl2 : l - 1 < L - 1) (q : MerkleProofM) :
    ColumnProofM.nodeAtLayer (ColumnProofM.allFromColumn
      { index := x,
        rows := (List.range (L - 1)).map (fun i => nodeAt (enc.getD i [])
          (if (i + 1) % 2 == 0 then invx else x)),
        kind := .all } q) l =
      .ok (nodeAt (enc.getD (l - 1) []) (if l % 2 == 0 then invx else x)) := by
  apply columnNodeAtLayer_eq
  show ((List.range (L - 1)).map (fun i => nodeAt (enc.getD i [])
    (if (i + 1) % 2 == 0 then invx else x))).get? (l - 1) = _
  rw [range_map_get? _ _ _ hl2]
  rw [show l - 1 + 1 = l by omega]

/-- Every part the prover assembles for a challenge passes the
corresponding verifier check: the opened leaves match the committed
trees, the column proofs rebuild the column commitments, and the
encoding proofs re-derive each layer's label from its parents. -/
theorem proveChallenge_parts_ok {M : HasherModel} {g0 : GraphModel} {id data : Bytes}
    {L : Nat} {taux : TemporaryAux} (W : HasherWf M) (G : GraphWf g0)
    (F : ReplicaFacts M g0 id data L taux) (ch : Nat) (hch : ch < g0.size)
    (parts : ChallengeProofParts)
    (hp : proveChallenge M g0 g0.zigzag g0.zigzag.zigzag taux L id ch = .ok parts) :
    parts.comm_d_proof.provesChallenge ch = true ∧
    parts.comm_d_proof.root = merkleRoot M.hash2F taux.tree_d ∧
    parts.rpc.c_x.verify M = true ∧
    parts.rpc.c_inv_x.verify M = true ∧
    parts.rpc.drg_parents.all (fun p => p.verify M) = true ∧
    parts.rpc.exp_parents_even.all (fun p => p.verify M) = true ∧
    parts.rpc.exp_parents_odd.all (fun p => p.verify M) = true ∧
    parts.comm_r_last_proof.1.provesChallenge (g0.invIndex ch) = true ∧
    (g0.zigzag.parents (g0.invIndex ch)).length = parts.comm_r_last_proof.2.length ∧
    ((parts.comm_r_last_proof.2.zip (g0.zigzag.parents (g0.invIndex ch))).all
      (fun pq => pq.1.provesChallenge pq.2)) = true ∧
    (∃ n1, parts.rpc.c_x.nodeAtLayer 1 = .ok n1 ∧
      parts.encoding_proof_1.verify M id n1 parts.comm_d_proof.leaf = true) ∧
    parts.encoding_proofs.length = L - 2 ∧
    verifyEncodingLoop M id parts.rpc 0 parts.encoding_proofs = .ok true := by
  have hinv : g0.invIndex ch < g0.size := G.inv_lt ch hch
  have hL2 := F.hL2
  have hgetD : ∀ j, j < L - 1 → taux.encodings.getD j [] = layerBuf M id g0 data (j + 1) :=
    fun j hj => getD_of_get? (F.hencget j hj) []
  simp only [proveChallenge] at hp
  obtain ⟨cdp, hcdp, hp⟩ := rr_bind_ok hp
  obtain ⟨cx_col, hcx, hp⟩ := rr_bind_ok hp
  obtain ⟨cx_incl, hcxi, hp⟩ := rr_bind_ok hp
  obtain ⟨cix_col, hcix, hp⟩ := rr_bind_ok hp
  obtain ⟨cix_incl, hcixi, hp⟩ := rr_bind_ok hp
  obtain ⟨drg_cols, hdrgc, hp⟩ := rr_bind_ok hp
  obtain ⟨drg_parents, hdrgp, hp⟩ := rr_bind_ok hp
  obtain ⟨odd_cols, hoddc, hp⟩ := rr_bind_ok hp
  obtain ⟨exp_odd, hoddp, hp⟩ := rr_bind_ok hp
  obtain ⟨even_cols, hevenc, hp⟩ := rr_bind_ok hp
  obtain ⟨exp_even, hevenp, hp⟩ := rr_bind_ok hp
  obtain ⟨incl_r, hinclr, hp⟩ := rr_bind_ok hp
  obtain ⟨epp, hepp, hp⟩ := rr_bind_ok hp
  obtain ⟨n1, hn1, hp⟩ := rr_bind_ok hp
  obtain ⟨enc0, henc0, hp⟩ := rr_bind_ok hp
  obtain ⟨pd1, hpd1, hp⟩ := rr_bind_ok hp
  obtain ⟨eps, heps, hp⟩ := rr_bind_ok hp
  have hpinj : (Except.ok (ChallengeProofParts.mk cdp (incl_r, epp)
      (ReplicaColumnProof.mk (ColumnProofM.allFromColumn cx_col cx_incl)
        (ColumnProofM.allFromColumn cix_col cix_incl) drg_parents exp_even exp_odd)
      (EncodingProofM.mk n1 cdp.leaf pd1) eps) : RR ChallengeProofParts) = .ok parts := hp
  injection hpinj with hpx
  subst hpx
  -- the opened data leaf
  obtain ⟨qd, hqd, hqdleaf, hqdroot, hqdpc, hqdval⟩ := rf_tree_d_proof F ch hch
  rw [hqd] at hcdp
  injection hcdp with hcdp'
  subst hcdp'
  -- the two full columns and their inclusion proofs
  rw [rf_full_col_eq G F ch hch] at hcx
  injection hcx with hcx'
  subst hcx'
  have hcxi2 : treeGenProof M taux.tree_c ch = .ok cx_incl := hcxi
  rw [rf_full_col_eq G F (g0.invIndex ch) hinv] at hcix
  injection hcix with hcix'
  subst hcix'
  have hcixi2 : treeGenProof M taux.tree_c (g0.invIndex ch) = .ok cix_incl := hcixi
  -- parent positions are in range
  have hbase_mem : ∀ p ∈ g0.baseParents ch, p < g0.size := fun p hp' =>
    lt_trans (G.dag0 ch hch p (by
      rw [GraphModel.parents]; exact List.mem_append_left _ hp')) hch
  have hexp_mem : ∀ p ∈ g0.expF ch, p < g0.size := fun p hp' =>
    lt_trans (G.dag0 ch hch p (by
      rw [GraphModel.parents]; exact List.mem_append_right _ hp')) hch
  -- drg parent column proofs verify
  rw [get_drg_parents_columns] at hdrgc
  have hdrgv : ∀ b ∈ drg_parents, b.verify M = true := by
    intro b hb
    obtain ⟨col, hcolmem, hcolb⟩ := mapM_ok_mem_rev hdrgp b hb
    obtain ⟨p, hpmem, hcolp⟩ := mapM_ok_mem_rev hdrgc col hcolmem
    have hpN : p < g0.size := hbase_mem p hpmem
    rw [rf_full_col_eq G F p hpN] at hcolp
    injection hcolp with hcolp'
    subst hcolp'
    obtain ⟨incl, hincl, hb2⟩ := rr_bind_ok hcolb
    have hincl2 : treeGenProof M taux.tree_c p = .ok incl := hincl
    injection hb2 with hb3
    rw [← hb3]
    exact rf_full_verifies W G F p hpN incl hincl2
  -- odd expansion-parent column proofs verify
  rw [get_exp_parents_odd_columns] at hoddc
  have hexpF2 : g0.zigzag.zigzag.expF ch = g0.expF ch := graphAt_expF_two g0 G.inv_inv 0 ch
  rw [hexpF2] at hoddc
  have hoddv : ∀ b ∈ exp_odd, b.verify M = true := by
    intro b hb
    obtain ⟨col, hcolmem, hcolb⟩ := mapM_ok_mem_rev hoddp b hb
    obtain ⟨p, hpmem, hcolp⟩ := mapM_ok_mem_rev hoddc col hcolmem
    have hpN : p < g0.size := hexp_mem p hpmem
    rw [rf_odd_col_eq F p hpN] at hcolp
    injection hcolp with hcolp'
    subst hcolp'
    obtain ⟨incl, hincl, hb2⟩ := rr_bind_ok hcolb
    obtain ⟨e, he, hb3⟩ := rr_bind_ok hb2
    have hincl2 : treeGenProof M taux.tree_c p = .ok incl := hincl
    have he2 : taux.es.get? p = some e := vecIndex_ok_inv he
    injection hb3 with hb4
    rw [← hb4]
    exact rf_odd_verifies W F p hpN incl hincl2 e he2
  -- even expansion-parent column proofs verify
  rw [get_exp_parents_even_columns] at hevenc
  have hg1exp : g0.zigzag.expF (g0.invIndex ch) = (g0.expF ch).map g0.invIndex := by
    show (g0.expF (g0.invIndex (g0.invIndex ch))).map g0.invIndex = _
    rw [G.inv_inv ch]
  rw [hg1exp] at hevenc
  have hevenv : ∀ b ∈ exp_even, b.verify M = true := by
    intro b hb
    obtain ⟨col, hcolmem, hcolb⟩ := mapM_ok_mem_rev hevenp b hb
    obtain ⟨p, hpmem, hcolp⟩ := mapM_ok_mem_rev hevenc col hcolmem
    obtain ⟨r, hrmem, hpr⟩ := List.mem_map.mp hpmem
    have hrN : r < g0.size := hexp_mem r hrmem
    have hpN : p < g0.size := hpr ▸ G.inv_lt r hrN
    rw [rf_even_col_eq F p hpN] at hcolp
    injection hcolp with hcolp'
    subst hcolp'
    obtain ⟨incl, hincl, hb2⟩ := rr_bind_ok hcolb
    obtain ⟨o, ho, hb3⟩ := rr_bind_ok hb2
    have hincl2 : treeGenProof M taux.tree_c (g0.invIndex p) = .ok incl := hincl
    have ho2 : taux.os.get? (g0.invIndex p) = some o := vecIndex_ok_inv ho
    injection hb3 with hb4
    rw [← hb4]
    exact rf_even_verifies W G F p hpN incl hincl2 o ho2
  -- the last-layer inclusion proof and its parent proofs
  obtain ⟨qr, hqr, hqrpc, hqrval⟩ := rf_tree_r_proof F (g0.invIndex ch) hinv
  rw [hqr] at hinclr
  injection hinclr with hinclr'
  subst hinclr'
  have hepplen : epp.length = (g0.zigzag.parents (g0.invIndex ch)).length :=
    mapM_ok_length hepp
  have hzipall : ((epp.zip (g0.zigzag.parents (g0.invIndex ch))).all
      (fun pq => pq.1.provesChallenge pq.2)) = true := by
    rw [List.all_eq_true]
    intro pq hpq
    obtain ⟨i, hi⟩ := List.get?_of_mem hpq
    obtain ⟨h1, h2⟩ := zip_get?_inv _ _ i pq hi
    obtain ⟨q2, hq2body, hq2i⟩ := mapM_ok_get hepp i pq.2 h2
    rw [hq2i] at h1
    injection h1 with h1'
    have hp2N : pq.2 < g0.size :=
      lt_trans (G.dag1 (g0.invIndex ch) hinv pq.2 (List.get?_mem h2)) hinv
    obtain ⟨q3, hq3, hq3pc, -⟩ := rf_tree_r_proof F pq.2 hp2N
    rw [hq3] at hq2body
    injection hq2body with hq23
    rw [← h1', ← hq23]
    exact hq3pc
  -- the layer-1 label opened through the challenge column
  have hn1v := full_col_nodeAtLayer M taux.encodings ch (g0.invIndex ch) L 1
    (by omega) (by omega) cx_incl
  rw [show ((1 : Nat) % 2 == 0) = false from rfl] at hn1v
  rw [hn1v] at hn1
  injection hn1 with hn1'
  subst hn1'
  -- the layer-1 buffer and the first encoding proof's parent labels
  have henc0g : taux.encodings.get? 0 = some (layerBuf M id g0 data 1) :=
    F.hencget 0 (by omega)
  have henc0v := vecIndex_ok_inv henc0
  rw [henc0g] at henc0v
  injection henc0v with henc0'
  subst henc0'
  have hpd1_eq : pd1 = (g0.parents ch).map (nodeAt (layerBuf M id g0 data 1)) := by
    apply mapM_ok_eq_map _ hpd1
    intro p hpmem b hb
    have hpN : p < g0.size := lt_trans (G.dag0 ch hch p hpmem) hch
    rw [data_at_node_ok (layerBuf_length M id g0 data W F.hlen 1) hpN] at hb
    injection hb with hb'
    exact hb'.symm
  -- the first encoding proof verifies
  have hep1 : (EncodingProofM.mk (nodeAt (taux.encodings.getD 0 []) ch) qd.leaf pd1).verify
      M id (nodeAt (taux.encodings.getD 0 []) ch) qd.leaf = true := by
    rw [EncodingProofM.verify, hpd1_eq, hqdleaf, hgetD 0 (by omega)]
    have hkey : M.kdfF (id ++ ((g0.parents ch).map
        (nodeAt (layerBuf M id g0 data 1))).flatten) =
        encKey M (graphAt g0 0) id (layerBuf M id g0 data 1) ch := rfl
    rw [hkey]
    have hle := @layer_encode_eq M g0 id data W G F.hlen 0 ch hch
    rw [show (0 : Nat) + 1 = 1 from rfl, show layerBuf M id g0 data 0 = data from rfl] at hle
    rw [show (0 : Nat) + 1 = 1 from rfl]
    rw [← hle]
    exact beq_self_eq_true _
  -- the per-layer encoding proofs
  have hepslen : eps.length = L - 2 := by
    rw [mapM_ok_length heps, List.length_range']
  have heploop : ∀ i ep, eps.get? i = some ep →
      ∃ enc dec,
        (ColumnProofM.allFromColumn
          { index := ch,
            rows := (List.range (L - 1)).map (fun j => nodeAt (taux.encodings.getD j [])
              (if (j + 1) % 2 == 0 then g0.invIndex ch else ch)),
            kind := .all } cx_incl).nodeAtLayer (i + 2) = .ok enc ∧
        (ColumnProofM.allFromColumn
          { index := g0.invIndex ch,
            rows := (List.range (L - 1)).map (fun j => nodeAt (taux.encodings.getD j [])
              (if (j + 1) % 2 == 0 then g0.invIndex (g0.invIndex ch) else g0.invIndex ch)),
            kind := .all } cix_incl).nodeAtLayer (i + 2 - 1) = .ok dec ∧
        ep.verify M id enc dec = true := by
    intro i ep hep
    have hiL : i < L - 2 := by
      have := hepslen ▸ (List.get?_eq_some.mp hep).1
      omega
    have hri : (List.range' 2 (L - 2)).get? i = some (i + 2) := by
      rw [range'_get? 2 (L - 2) i hiL]
      rw [Nat.add_comm]
    obtain ⟨ep2, hbody, hepi⟩ := mapM_ok_get heps i (i + 2) hri
    rw [hepi] at hep
    injection hep with hep'
    subst hep'
    obtain ⟨enc, hencd, hb2⟩ := rr_bind_ok hbody
    obtain ⟨dec, hdecd, hb3⟩ := rr_bind_ok hb2
    obtain ⟨ed, hed, hb4⟩ := rr_bind_ok hb3
    obtain ⟨pdl, hpdl, hb5⟩ := rr_bind_ok hb4
    have hep2v : ep2 = EncodingProofM.mk enc dec pdl := by simpa using hb5.symm
    refine ⟨enc, dec, hencd, hdecd, ?_⟩
    -- values of the two opened labels
    have hencv := full_col_nodeAtLayer M taux.encodings ch (g0.invIndex ch) L (i + 2)
      (by omega) (by omega) cx_incl
    rw [hencv] at hencd
    injection hencd with hencd'
    have hdecv := full_col_nodeAtLayer M taux.encodings (g0.invIndex ch)
      (g0.invIndex (g0.invIndex ch)) L (i + 1) (by omega) (by omega) cix_incl
    have hdecd2 : ColumnProofM.nodeAtLayer (ColumnProofM.allFromColumn
        { index := g0.invIndex ch,
          rows := (List.range (L - 1)).map (fun j => nodeAt (taux.encodings.getD j [])
            (if (j + 1) % 2 == 0 then g0.invIndex (g0.invIndex ch) else g0.invIndex ch)),
          kind := .all } cix_incl) (i + 1) = .ok dec := hdecd
    rw [hdecv] at hdecd2
    injection hdecd2 with hdecd'
    -- the layer buffer opened for the parent labels
    have hedg : taux.encodings.get? (i + 1) = some (layerBuf M id g0 data (i + 2)) :=
      F.hencget (i + 1) (by omega)
    have hedv := vecIndex_ok_inv hed
    have hedv2 : taux.encodings.get? (i + 1) = some ed := hedv
    rw [hedg] at hedv2
    injection hedv2 with hed'
    subst hed'
    rw [hep2v, EncodingProofM.verify]
    rcases Nat.mod_two_eq_zero_or_one i with hpar | hpar
    · -- even offset: odd 0-indexed pass, graph g1, inverted position
      have hm2 : ((i + 2) % 2 == 0) = true := by
        rw [show (i + 2) % 2 = 0 by omega]
        rfl
      have hm1 : ((i + 1) % 2 == 0) = false := by
        rw [show (i + 1) % 2 = 1 by omega]
        rfl
      rw [hm2] at hencd'
      rw [hm1] at hdecd'
      simp only [if_true, Bool.false_eq_true, if_false] at hencd' hdecd'
      rw [hm2] at hpdl
      simp only [if_true] at hpdl
      have hpdl_eq : pdl = (g0.zigzag.parents (g0.invIndex ch)).map
          (nodeAt (layerBuf M id g0 data (i + 2))) := by
        apply mapM_ok_eq_map _ hpdl
        intro p hpmem b hb
        have hpN : p < g0.size :=
          lt_trans (G.dag1 (g0.invIndex ch) hinv p hpmem) hinv
        rw [data_at_node_ok (layerBuf_length M id g0 data W F.hlen (i + 2)) hpN] at hb
        injection hb with hb'
        exact hb'.symm
      rw [hpdl_eq]
      have hkey : M.kdfF (id ++ ((g0.zigzag.parents (g0.invIndex ch)).map
          (nodeAt (layerBuf M id g0 data (i + 2)))).flatten) =
          encKey M (graphAt g0 (i + 1)) id (layerBuf M id g0 data (i + 2))
            (g0.invIndex ch) := by
        rw [encKey, graphAt_parents_mod g0 G (i + 1), show (i + 1) % 2 = 1 by omega]
        rfl
      rw [hkey]
      have hle := @layer_encode_eq M g0 id data W G F.hlen (i + 1) (g0.invIndex ch) hinv
      rw [show i + 1 + 1 = i + 2 from rfl] at hle
      rw [← hencd', ← hdecd']
      rw [show i + 2 - 1 = i + 1 from rfl, show i + 1 - 1 = i from rfl]
      rw [hgetD (i + 1) (by omega), hgetD i (by omega)]
      rw [← hle]
      exact beq_self_eq_true _
    · -- odd offset: even 0-indexed pass, graph g2, original position
      have hm2 : ((i + 2) % 2 == 0) = false := by
        rw [show (i + 2) % 2 = 1 by omega]
        rfl
      have hm1 : ((i + 1) % 2 == 0) = true := by
        rw [show (i + 1) % 2 = 0 by omega]
        rfl
      rw [hm2] at hencd'
      rw [hm1] at hdecd'
      simp only [if_true, Bool.false_eq_true, if_false] at hencd' hdecd'
      rw [G.inv_inv ch] at hdecd'
      rw [hm2] at hpdl
      simp only [Bool.false_eq_true, if_false] at hpdl
      have hpdl_eq : pdl = (g0.zigzag.zigzag.parents ch).map
          (nodeAt (layerBuf M id g0 data (i + 2))) := by
        apply mapM_ok_eq_map _ hpdl
        intro p hpmem b hb
        have hpg : g0.zigzag.zigzag.parents ch = (graphAt g0 0).parents ch := by
          have := graphAt_parents_mod g0 G 2 ch
          rwa [show (2 : Nat) % 2 = 0 from rfl] at this
        have hpN : p < g0.size := by
          rw [hpg] at hpmem
          exact lt_trans (graphAt_dag g0 G 0 ch hch p hpmem) hch
        rw [data_at_node_ok (layerBuf_length M id g0 data W F.hlen (i + 2)) hpN] at hb
        injection hb with hb'
        exact hb'.symm
      rw [hpdl_eq]
      have hkey : M.kdfF (id ++ ((g0.zigzag.zigzag.parents ch).map
          (nodeAt (layerBuf M id g0 data (i + 2)))).flatten) =
          encKey M (graphAt g0 (i + 1)) id (layerBuf M id g0 data (i + 2)) ch := by
        rw [encKey, graphAt_parents_mod g0 G (i + 1), show (i + 1) % 2 = 0 by omega]
        have h22 : g0.zigzag.zigzag.parents ch = (graphAt g0 0).parents ch := by
          have := graphAt_parents_mod g0 G 2 ch
          rwa [show (2 : Nat) % 2 = 0 from rfl] at this
        rw [h22]
      rw [hkey]
      have hle := @layer_encode_eq M g0 id data W G F.hlen (i + 1) ch hch
      rw [show i + 1 + 1 = i + 2 from rfl] at hle
      rw [← hencd', ← hdecd']
      rw [show i + 2 - 1 = i + 1 from rfl, show i + 1 - 1 = i from rfl]
      rw [hgetD (i + 1) (by omega), hgetD i (by omega)]
      rw [← hle]
      exact beq_self_eq_true _
  -- assemble the conjunction
  refine ⟨hqdpc, hqdroot, ?_, ?_, ?_, ?_, ?_, hqrpc, hepplen.symm, hzipall, ?_, hepslen, ?_⟩
  · exact rf_full_verifies W G F ch hch cx_incl hcxi2
  · exact rf_full_verifies W G F (g0.invIndex ch) hinv cix_incl hcixi2
  · exact List.all_eq_true.mpr hdrgv
  · exact List.all_eq_true.mpr hevenv
  · exact List.all_eq_true.mpr hoddv
  · refine ⟨nodeAt (taux.encodings.getD 0 []) ch, ?_, ?_⟩
    · have := full_col_nodeAtLayer M taux.encodings ch (g0.invIndex ch) L 1
        (by omega) (by omega) cx_incl
      rwa [show ((1 : Nat) % 2 == 0) = false from rfl] at this
    · exact hep1
  · exact verifyEncodingLoop_ok M id _ eps 0 (fun i ep hep => by
      obtain ⟨enc, dec, henc2, hdec2, hv2⟩ := heploop i ep hep
      refine ⟨enc, dec, ?_, ?_, hv2⟩
      · rwa [show 0 + i + 2 = i + 2 by omega]
      · rwa [show 0 + i + 2 - 1 = i + 2 - 1 by omega])

/-- A successful row read certifies that the opened label decodes. -/
theorem column_row_ok_val {M : HasherModel} {enc : List Bytes} {y j : Nat} {b : Bytes}
    (h : (do tryFromBytes M (← get_node_at_layer enc y j)) = (.ok b : RR Bytes)) :
    M.validDomain (nodeAt (enc.getD j []) y) = true := by
  rw [show (do tryFromBytes M (← get_node_at_layer enc y j)) =
      (get_node_at_layer enc y j >>= tryFromBytes M) from rfl] at h
  obtain ⟨a, ha, hb⟩ := rr_bind_ok h
  rw [get_node_at_layer] at ha
  cases hq : enc.get? j with
  | none => rw [hq] at ha; exact absurd ha (by simp)
  | some buf =>
    rw [hq] at ha
    have ha2 : data_at_node buf y = .ok a := ha
    rw [data_at_node] at ha2
    split at ha2
    · have haa : a = nodeAt buf y := by simpa using ha2.symm
      rw [tryFromBytes] at hb
      split at hb
      · rename_i hval
        rw [getD_of_get? hq [], ← haa]
        exact hval
      · exact absurd hb (by simp)
    · exact absurd ha2 (by simp)

theorem get_odd_column_row_val {M : HasherModel} {enc : List Bytes} {layers x : Nat}
    {col : ColumnM} (h : get_odd_column M enc layers x = .ok col) :
    ∀ j ∈ stepBy2 0 layers, M.validDomain (nodeAt (enc.getD j []) x) = true := by
  rw [get_odd_column] at h
  rw [show ∀ e : RR (List Bytes), (do
        let rows ← e
        (.ok { index := x, rows := rows, kind := .odd } : RR ColumnM)) =
        (e >>= fun rows => .ok { index := x, rows := rows, kind := .odd })
      from fun _ => rfl] at h
  obtain ⟨rows, hrows, -⟩ := rr_bind_ok h
  intro j hj
  obtain ⟨b, hb⟩ := mapM_ok_elem hrows j hj
  exact column_row_ok_val hb

theorem get_even_column_row_val {M : HasherModel} {enc : List Bytes} {layers x : Nat}
    {col : ColumnM} (h : get_even_column M enc layers x = .ok col) :
    ∀ j ∈ stepBy2 1 (layers - 1), M.validDomain (nodeAt (enc.getD j []) x) = true := by
  rw [get_even_column] at h
  rw [show ∀ e : RR (List Bytes), (do
        let rows ← e
        (.ok { index := x, rows := rows, kind := .even } : RR ColumnM)) =
        (e >>= fun rows => .ok { index := x, rows := rows, kind := .even })
      from fun _ => rfl] at h
  obtain ⟨rows, hrows, -⟩ := rr_bind_ok h
  intro j hj
  obtain ⟨b, hb⟩ := mapM_ok_elem hrows j hj
  exact column_row_ok_val hb

theorem stepBy2_mem_even {j L : Nat} (hj : j < L) (hpar : j % 2 = 0) :
    j ∈ stepBy2 0 L := by
  simp only [stepBy2, List.mem_map, List.mem_range]
  exact ⟨j / 2, by omega, by omega⟩

theorem stepBy2_mem_odd {j L : Nat} (hj : j < L - 1) (hpar : j % 2 = 1) (hL : L % 2 = 0) :
    j ∈ stepBy2 1 (L - 1) := by
  simp only [stepBy2, List.mem_map, List.mem_range]
  exact ⟨(j - 1) / 2, by omega, by omega⟩

/-- A successful `replicate` establishes all the replication facts, and
pins down the replica buffer and the data commitment. -/
theorem replicaFacts_of_replicate (M : HasherModel) (pp : PublicParams) (id data : Bytes)
    (tau : Tau) (paux : PersistentAux) (taux : TemporaryAux) (replica : Bytes)
    (W : HasherWf M) (G : GraphWf pp.graph)
    (hrep : replicate M pp id data none = .ok (tau, paux, taux, replica)) :
    ReplicaFacts M pp.graph id data pp.layer_challenges.layers taux ∧
    replica = layerBuf M id pp.graph data pp.layer_challenges.layers ∧
    tau.comm_d = merkleRoot M.hash2F taux.tree_d := by
  obtain ⟨hlen, hlay, htd, henc, helen, hos, hes, htc, htr, htau, hpaux⟩ :=
    transform_ok_parts M pp.graph pp.layer_challenges id data tau paux taux replica hrep
  have hdiv : data.length / NODE_SIZE = pp.graph.size := by
    rw [hlen]
    show pp.graph.size * 32 / 32 = pp.graph.size
    omega
  obtain ⟨hmod_d, htd_eq0, hpow_d, -⟩ := buildTree_ok_inv M data taux.tree_d htd
  have hNpow : ∃ k, pp.graph.size = 2 ^ k := by
    obtain ⟨k, hk⟩ := isPow2_pow hpow_d
    exact ⟨k, by rw [← hdiv, hk]⟩
  have hN : 0 < pp.graph.size := by
    have hp := isPow2_pos hpow_d
    rwa [hdiv] at hp
  have htd_eq : taux.tree_d = (List.range pp.graph.size).map (nodeAt data) := by
    rw [htd_eq0, hdiv]
  obtain ⟨b0, hb0⟩ := mapM_ok_elem hos 0 (List.mem_range.mpr hN)
  obtain ⟨col0, hcol0, -⟩ := rr_map_ok hb0
  have heven := get_odd_column_ok_even M taux.encodings pp.layer_challenges.layers 0 col0
    hlay helen hcol0
  have hL2 : 2 ≤ pp.layer_challenges.layers := by omega
  have hchar := encodeLoop_eq M id pp.graph data W hlen pp.layer_challenges.layers 0 hlay
  rw [show graphAt pp.graph 0 = pp.graph from rfl,
      show layerBuf M id pp.graph data 0 = data from rfl, henc] at hchar
  simp only [Except.ok.injEq, Prod.mk.injEq, Nat.zero_add] at hchar
  have henc_eq : taux.encodings =
      (List.range' 1 (pp.layer_challenges.layers - 1)).map (layerBuf M id pp.graph data) :=
    hchar.1
  have hrepl : replica = layerBuf M id pp.graph data pp.layer_challenges.layers := hchar.2
  have hencget : ∀ j, j < pp.layer_challenges.layers - 1 →
      taux.encodings.get? j = some (layerBuf M id pp.graph data (j + 1)) := by
    intro j hj
    rw [henc_eq, map_get?_some _ (range'_get? 1 _ j hj)]
    rw [show 1 + j = j + 1 by omega]
  have hblen : ∀ buf ∈ taux.encodings, buf.length = pp.graph.size * NODE_SIZE := by
    intro buf hbmem
    rw [henc_eq] at hbmem
    obtain ⟨t, -, rfl⟩ := List.mem_map.mp hbmem
    exact layerBuf_length M id pp.graph data W hlen t
  have hvalidx : ∀ j, j < pp.layer_challenges.layers - 1 → ∀ y, y < pp.graph.size →
      M.validDomain (nodeAt (taux.encodings.getD j []) y) = true := by
    intro j hj y hy
    rcases Nat.mod_two_eq_zero_or_one j with hpar | hpar
    · obtain ⟨by', hby⟩ := mapM_ok_elem hos y (List.mem_range.mpr hy)
      obtain ⟨coly, hcoly, -⟩ := rr_map_ok hby
      exact get_odd_column_row_val hcoly j (stepBy2_mem_even (by omega) hpar)
    · obtain ⟨by', hby⟩ := mapM_ok_elem hes (pp.graph.invIndex y)
        (List.mem_range.mpr (G.inv_lt y hy))
      obtain ⟨coly, hcoly, -⟩ := rr_map_ok hby
      rw [G.inv_inv y] at hcoly
      exact get_even_column_row_val hcoly j (stepBy2_mem_odd hj hpar heven)
  have hvalm : ∀ buf ∈ taux.encodings, ∀ y, y < pp.graph.size →
      M.validDomain (nodeAt buf y) = true := by
    intro buf hbmem y hy
    obtain ⟨j, hjq⟩ := List.get?_of_mem hbmem
    have hjlt : j < taux.encodings.length := (List.get?_eq_some.mp hjq).1
    rw [helen] at hjlt
    rw [← getD_of_get? hjq []]
    exact hvalidx j hjlt y hy
  have hosl : taux.os.length = pp.graph.size := by
    rw [mapM_ok_length hos, List.length_range]
  have hesl : taux.es.length = pp.graph.size := by
    rw [mapM_ok_length hes, List.length_range]
  have hosget : ∀ i, i < pp.graph.size → taux.os.get? i = some (M.hashF
      (((List.range (pp.layer_challenges.layers / 2)).map
        (fun t => nodeAt (taux.encodings.getD (2 * t) []) i)).flatten)) := by
    intro i hi
    have hri : (List.range pp.graph.size).get? i = some i := by
      rw [List.get?_eq_getElem?, List.getElem?_range hi]
    obtain ⟨b, hb, hbi⟩ := mapM_ok_get hos i i hri
    obtain ⟨colb, hcolb, hbc⟩ := rr_map_ok hb
    have hbufi : ∀ buf ∈ taux.encodings, (i + 1) * NODE_SIZE ≤ buf.length := fun buf hbm => by
      rw [hblen buf hbm]
      exact Nat.mul_le_mul_right _ hi
    rw [get_odd_column_eq M taux.encodings pp.layer_challenges.layers i heven (by omega)
      helen hbufi (fun buf hbm => hvalm buf hbm i hi)] at hcolb
    injection hcolb with hcolb'
    rw [hbi, hbc, ← hcolb']
    rfl
  have hesget : ∀ i, i < pp.graph.size → taux.es.get? i = some (M.hashF
      (((List.range ((pp.layer_challenges.layers - 1) / 2)).map
        (fun t => nodeAt (taux.encodings.getD (2 * t + 1) [])
          (pp.graph.invIndex i))).flatten)) := by
    intro i hi
    have hri : (List.range pp.graph.size).get? i = some i := by
      rw [List.get?_eq_getElem?, List.getElem?_range hi]
    obtain ⟨b, hb, hbi⟩ := mapM_ok_get hes i i hri
    obtain ⟨colb, hcolb, hbc⟩ := rr_map_ok hb
    have hiv : pp.graph.invIndex i < pp.graph.size := G.inv_lt i hi
    have hbufi : ∀ buf ∈ taux.encodings,
        (pp.graph.invIndex i + 1) * NODE_SIZE ≤ buf.length := fun buf hbm => by
      rw [hblen buf hbm]
      exact Nat.mul_le_mul_right _ hiv
    rw [get_even_column_eq M taux.encodings pp.layer_challenges.layers (pp.graph.invIndex i)
      helen hbufi (fun buf hbm => hvalm buf hbm _ hiv)] at hcolb
    injection hcolb with hcolb'
    rw [hbi, hbc, ← hcolb']
    rfl
  have hcs_uni : ∀ b ∈ (taux.os.zip taux.es).map (fun p => M.hash2F p.1 p.2),
      b.length = NODE_SIZE := by
    intro b hb
    obtain ⟨p, -, rfl⟩ := List.mem_map.mp hb
    exact W.hash2_len p.1 p.2
  have hcs_len : ((((taux.os.zip taux.es).map (fun p => M.hash2F p.1 p.2)).flatten)).length =
      pp.graph.size * NODE_SIZE := by
    rw [flatten_uniform_length _ hcs_uni, List.length_map, List.length_zip, hosl, hesl,
      Nat.min_self]
  obtain ⟨-, htc_eq0, -, -⟩ := buildTree_ok_inv M _ taux.tree_c htc
  have htc_eq : taux.tree_c = (List.range pp.graph.size).map
      (nodeAt (((taux.os.zip taux.es).map (fun p => M.hash2F p.1 p.2)).flatten)) := by
    rw [htc_eq0]
    congr 2
    rw [hcs_len]
    show pp.graph.size * 32 / 32 = pp.graph.size
    omega
  obtain ⟨-, htr_eq0, -, -⟩ := buildTree_ok_inv M replica taux.tree_r_last htr
  have htr_eq : taux.tree_r_last = (List.range pp.graph.size).map
      (nodeAt (layerBuf M id pp.graph data pp.layer_challenges.layers)) := by
    rw [hrepl] at htr_eq0
    rw [htr_eq0]
    congr 2
    rw [layerBuf_length M id pp.graph data W hlen]
    show pp.graph.size * 32 / 32 = pp.graph.size
    omega
  refine ⟨⟨hL2, heven, hlen, helen, hencget, hblen, hvalm, htd_eq, htr_eq, htc_eq,
    hosl, hesl, hosget, hesget, hNpow⟩, hrepl, ?_⟩
  rw [htau]

/-- The concrete two-node graph satisfies the graph invariants. -/
theorem toyGraphWf : GraphWf toyGraph := by
  refine ⟨fun x => rfl, fun x hx => hx, fun j x => rfl, rfl, ?_, ?_⟩
  · intro x hx p hp
    match x, hx with
    | 0, _ => simp [GraphModel.parents, GraphModel.baseParents, toyGraph] at hp
    | 1, _ =>
      simp [GraphModel.parents, GraphModel.baseParents, toyGraph] at hp
      omega
  · intro x hx p hp
    match x, hx with
    | 0, _ =>
      simp [GraphModel.parents, GraphModel.baseParents, GraphModel.zigzag, toyGraph] at hp
    | 1, _ =>
      simp [GraphModel.parents, GraphModel.baseParents, GraphModel.zigzag, toyGraph] at hp
      omega

/-- The concrete hash family satisfies the interface contracts. -/
theorem toyHasherWf : HasherWf toyM := by
  refine ⟨fun b => by simp [toyM, toyWord, NODE_SIZE], fun a b => by
    simp [toyM, toyWord, NODE_SIZE], ?_, ?_, ?_⟩
  · intro k v hk hv
    simp [toyM, hk, hv]
  · intro k v _
    simp only [toyM, List.all_eq_true, List.mem_map]
    rintro b ⟨p, _, rfl⟩
    simp only [decide_eq_true_eq]
    omega
  · intro k v hk hv hvlt
    apply List.ext_getElem
    · simp [toyM, hk, hv]
    · intro i h1 h2
      have hi : i < 32 := by
        simp [toyM, NODE_SIZE, hk, hv] at h1
        omega
      have hvi : v[i] < 256 := by
        have := List.all_eq_true.mp hvlt v[i] (List.getElem_mem (hv ▸ hi))
        simpa using this
      simp only [toyM, List.getElem_map, List.getElem_zip]
      omega

/-- C2: round-trip.  Under the interface contracts of the hash family and
the graph invariants, whenever `replicate` succeeds on a byte buffer, the
replica it returns is mapped back to the original data by `extract_all`
with the same public parameters and replica id. -/
theorem c2_roundtrip (M : HasherModel) (pp : PublicParams) (id data : Bytes)
    (tau : Tau) (paux : PersistentAux) (taux : TemporaryAux) (replica : Bytes)
    (W : HasherWf M) (G : GraphWf pp.graph)
    (hdata : data.all (· < 256) = true)
    (hrep : replicate M pp id data none = .ok (tau, paux, taux, replica)) :
    extract_all M pp id replica = .ok data := by
  obtain ⟨hlen, hlay, htd, henc, helen, hos, hes, htc, htr, htau, hpaux⟩ :=
    transform_ok_parts M pp.graph pp.layer_challenges id data tau paux taux replica hrep
  have hdiv : data.length / NODE_SIZE = pp.graph.size := by
    rw [hlen]
    show pp.graph.size * 32 / 32 = pp.graph.size
    omega
  have hN : 0 < pp.graph.size := by
    obtain ⟨_, _, hpow, _⟩ := buildTree_ok_inv M data taux.tree_d htd
    have hp := isPow2_pos hpow
    rwa [hdiv] at hp
  obtain ⟨b0, hb0⟩ := mapM_ok_elem hos 0 (List.mem_range.mpr hN)
  obtain ⟨col, hcol, _⟩ := rr_map_ok hb0
  have heven := get_odd_column_ok_even M taux.encodings pp.layer_challenges.layers 0 col
    hlay helen hcol
  have hchar := encodeLoop_eq M id pp.graph data W hlen pp.layer_challenges.layers 0 hlay
  rw [show graphAt pp.graph 0 = pp.graph from rfl,
      show layerBuf M id pp.graph data 0 = data from rfl, henc] at hchar
  simp only [Except.ok.injEq, Prod.mk.injEq, Nat.zero_add] at hchar
  have hrepl : replica = layerBuf M id pp.graph data pp.layer_challenges.layers := hchar.2
  have hext := extractLoop_eq M id pp.graph data W G pp.layer_challenges.layers heven
    hlen hdata pp.layer_challenges.layers (Nat.le_refl _)
  rw [Nat.sub_self, show graphAt pp.graph 0 = pp.graph from rfl] at hext
  rw [extract_all, extract_and_invert_transform_layers]
  simp only [hlay, if_true, hrepl, hext]

/-- C2 witness: on the two-node toy model, replication succeeds and
extraction of the returned replica recovers the original 64-byte buffer. -/
theorem c2_roundtrip_witness :
    toyData.all (· < 256) = true ∧
    extract_all toyM toyPP toyReplicaId toyReplicateOut.2.2.2 = .ok toyData :=
  ⟨by decide,
   c2_roundtrip toyM toyPP toyReplicaId toyData
     toyReplicateOut.1 toyReplicateOut.2.1 toyReplicateOut.2.2.1 toyReplicateOut.2.2.2
     toyHasherWf toyGraphWf (by decide) toyReplicate_ok⟩

/-- C1: completeness.  Under the interface contracts of the hash family,
the graph invariants, and in-range derived challenges, whenever
`replicate` succeeds and `prove_all_partitions` produces partition proofs
from the resulting public and private inputs with any partition count,
`verify_all_partitions` accepts those proofs. -/
theorem c1_completeness (M : HasherModel) (pp : PublicParams) (id data : Bytes)
    (tau : Tau) (paux : PersistentAux) (taux : TemporaryAux) (replica : Bytes)
    (pub : PublicInputs) (K : Nat) (proofs : List ProofM)
    (W : HasherWf M) (G : GraphWf pp.graph)
    (hrep : replicate M pp id data none = .ok (tau, paux, taux, replica))
    (hpub_id : pub.replica_id = id)
    (hpub_tau : pub.tau = tau)
    (hderive : ∀ k c, c ∈ pub.challenges M pp.layer_challenges pp.graph.size (some k) →
      c < pp.graph.size)
    (hprove : prove_all_partitions M pp pub (PrivateInputs.mk paux taux) K = .ok proofs) :
    verify_all_partitions M pp pub proofs = .ok true := by
  subst hpub_id
  subst hpub_tau
  obtain ⟨F, hrepl, hcomm_d⟩ := replicaFacts_of_replicate M pp pub.replica_id data
    pub.tau paux taux replica W G hrep
  simp only [prove_all_partitions] at hprove
  split at hprove
  case isFalse => exact absurd hprove (by simp)
  simp only [prove_layers] at hprove
  split at hprove
  case isFalse => exact absurd hprove (by simp)
  split at hprove
  case isFalse => exact absurd hprove (by simp)
  split at hprove
  case isFalse => exact absurd hprove (by simp)
  split at hprove
  case isFalse => exact absurd hprove (by simp)
  have hproofs_len : proofs.length = K := by
    rw [mapM_ok_length hprove, List.length_range]
  have hper : ∀ kp ∈ proofs.enum, verifyPartition M pp.layer_challenges pub pp.graph
      pp.graph.zigzag pp.layer_challenges.layers kp.1 kp.2 = .ok true := by
    intro kp hkp
    obtain ⟨t, ht⟩ := List.get?_of_mem hkp
    rw [List.get?_enum] at ht
    cases hq : proofs.get? t with
    | none => rw [hq] at ht; simp at ht
    | some pr =>
      rw [hq] at ht
      have hkp2 : kp = (t, pr) := by simpa using ht.symm
      subst hkp2
      show verifyPartition M pp.layer_challenges pub pp.graph pp.graph.zigzag
        pp.layer_challenges.layers t pr = .ok true
      have htK : t < K := by
        rw [← hproofs_len]
        exact (List.get?_eq_some.mp hq).1
      obtain ⟨prb, hprb, hprb2⟩ := mapM_ok_get hprove t t
        (by rw [List.get?_eq_getElem?, List.getElem?_range htK])
      rw [hq] at hprb2
      injection hprb2 with hpr'
      subst hpr'
      obtain ⟨partsList, hpl, hpr2⟩ := rr_bind_ok hprb
      injection hpr2 with hpr3
      subst hpr3
      simp only [verifyPartition]
      apply verifyChallengeLoop_ok
      intro s c hsc
      have hcN : c < pp.graph.size := hderive t c (List.get?_mem hsc)
      obtain ⟨parts, hpc, hplist⟩ := mapM_ok_get hpl s c hsc
      obtain ⟨m1, m2, m3, m4, m5, m6, m7, m8, m9, m10, ⟨n1, hn1, m11⟩, m12, m13⟩ :=
        proveChallenge_parts_ok W G F c hcN parts hpc
      have hv1 := vecIndex_ok (map_get?_some (fun p => p.comm_d_proof) hplist)
      have hv2 := vecIndex_ok (map_get?_some (fun p => p.rpc) hplist)
      have hv3 := vecIndex_ok (map_get?_some (fun p => p.comm_r_last_proof) hplist)
      have hv4 := vecIndex_ok (map_get?_some (fun p => p.encoding_proof_1) hplist)
      have hv5 := vecIndex_ok (map_get?_some (fun p => p.encoding_proofs) hplist)
      have hroot : (parts.comm_d_proof.root == pub.tau.comm_d) = true := by
        rw [m2, hcomm_d]
        exact beq_self_eq_true _
      have hlen9 : ((pp.graph.zigzag.parents (pp.graph.invIndex c)).length ==
          parts.comm_r_last_proof.2.length) = true := by
        rw [m9]
        exact beq_self_eq_true _
      have hlen12 : (parts.encoding_proofs.length ==
          pp.layer_challenges.layers - 2) = true := by
        rw [m12]
        exact beq_self_eq_true _
      simp only [verifyChallenge, Nat.zero_add, Nat.mod_eq_of_lt hcN, hv1, hv2, hv3, hv4,
        hv5, Bind.bind, Except.bind, m1, hroot, m3, m4, m5, m6, m7, m8, hlen9, m10, hn1,
        m11, hlen12, Bool.and_self, Bool.and_true, Bool.true_and, if_true]
      exact m13
  simp only [verify_all_partitions]
  rw [show (pp.graph.layer == 0) = true from by rw [G.layer0]; rfl]
  simp only [if_true]
  rw [mapM_ok_of proofs.enum _ (fun _ => true) hper]
  simp only [Bind.bind, Except.bind, Except.ok.injEq]
  rw [List.all_eq_true]
  intro x hx
  obtain ⟨-, -, rfl⟩ := List.mem_map.mp hx
  rfl

/-- C1 witness: on the two-node toy model the full pipeline runs end to
end: replication succeeds, the prover produces one partition proof, and
verification accepts it. -/
theorem c1_completeness_witness :
    prove_all_partitions toyM toyPP toyPubC1 toyPrivC1 1 = .ok toyProofs ∧
    verify_all_partitions toyM toyPP toyPubC1 toyProofs = .ok true := by
  have hprove : prove_all_partitions toyM toyPP toyPubC1 toyPrivC1 1 = .ok toyProofs := by
    have hok : (prove_all_partitions toyM toyPP toyPubC1 toyPrivC1 1).isOk = true := by
      decide
    cases he : prove_all_partitions toyM toyPP toyPubC1 toyPrivC1 1 with
    | ok r => simp [toyProofs, he]
    | error e => rw [he] at hok; simp [Except.isOk, Except.toBool] at hok
  refine ⟨hprove, ?_⟩
  exact c1_completeness toyM toyPP toyReplicaId toyData toyReplicateOut.1
    toyReplicateOut.2.1 toyReplicateOut.2.2.1 toyReplicateOut.2.2.2 toyPubC1 1 toyProofs
    toyHasherWf toyGraphWf toyReplicate_ok rfl rfl
    (fun k c hc => by
      have hch : toyPubC1.challenges toyM toyPP.layer_challenges toyPP.graph.size
          (some k) = [0] := rfl
      rw [hch] at hc
      have hc0 : c = 0 := by simpa using hc
      rw [hc0]
      decide)
    hprove

end ZigZag
